import Mathlib

/-!
Verification of the YamlConfig layered configuration manager
(`source/config.py`).

The Python module is shallowly embedded: YAML trees become the inductive
type `Val` (scalars and insertion-ordered string-keyed mappings, matching
Python dicts), in-place mutation becomes explicit state passing on a
`Store` record, and every `raise` point of the Python code becomes an
`Err` value returned **together with** the state accumulated up to that
point, so that partial mutation on failure is observable, exactly as in
Python.  External collaborators (the YAML parser behind `load_yaml`, the
filesystem behind `save`) are abstract environments (`Env`, `WEnv`).
-/

/-- A YAML/Python value: an integer scalar, a string scalar, or a dict
(an insertion-ordered association list with string keys, as a Python
`dict` is).  Lists and other scalar kinds play no role in the claims
under study and are omitted from the universe. -/
inductive Val where
  | vInt (n : Int)
  | vStr (s : String)
  | vMap (m : List (String × Val))
deriving Repr

mutual

def Val.beq : Val → Val → Bool
  | .vInt a, .vInt b => a == b
  | .vStr a, .vStr b => a == b
  | .vMap a, .vMap b => Val.beqL a b
  | _, _ => false

def Val.beqL : List (String × Val) → List (String × Val) → Bool
  | [], [] => true
  | (k, v) :: r, (k2, v2) :: r2 => k == k2 && Val.beq v v2 && Val.beqL r r2
  | _, _ => false

end

mutual

theorem Val.beq_iff : (a b : Val) → (Val.beq a b = true ↔ a = b)
  | .vInt _, .vInt _ => by simp [Val.beq]
  | .vStr _, .vStr _ => by simp [Val.beq]
  | .vMap a, .vMap b => by simp [Val.beq, Val.beqL_iff a b]
  | .vInt _, .vStr _ => by simp [Val.beq]
  | .vInt _, .vMap _ => by simp [Val.beq]
  | .vStr _, .vInt _ => by simp [Val.beq]
  | .vStr _, .vMap _ => by simp [Val.beq]
  | .vMap _, .vInt _ => by simp [Val.beq]
  | .vMap _, .vStr _ => by simp [Val.beq]

theorem Val.beqL_iff : (a b : List (String × Val)) → (Val.beqL a b = true ↔ a = b)
  | [], [] => by simp [Val.beqL]
  | (k, v) :: r, (k2, v2) :: r2 => by
      simp [Val.beqL, Val.beq_iff v v2, Val.beqL_iff r r2, and_assoc]
  | [], _ :: _ => by simp [Val.beqL]
  | _ :: _, [] => by simp [Val.beqL]

end

instance : DecidableEq Val := fun a b =>
  decidable_of_iff (Val.beq a b = true) (Val.beq_iff a b)

/-- Python `isinstance(v, dict)`. -/
def Val.isMap : Val → Bool
  | .vMap _ => true
  | _ => false

/-- First-match lookup in an association list; Python `d[key]` /
`key in d` on a dict (keys of real dicts are unique, so first match is
the match). -/
def lookupA : List (String × Val) → String → Option Val
  | [], _ => none
  | (k, v) :: rest, key => if k = key then some v else lookupA rest key

/-- Python `d[key] = v` on a dict: replace in place (keeping the key's
position) when present, append when absent. -/
def setKeyA : List (String × Val) → String → Val → List (String × Val)
  | [], key, v => [(key, v)]
  | (k, w) :: rest, key, v =>
      if k = key then (key, v) :: rest else (k, w) :: setKeyA rest key v

/-- Python `del d[key]` (first occurrence). -/
def delKeyA : List (String × Val) → String → List (String × Val)
  | [], _ => []
  | (k, w) :: rest, key => if k = key then rest else (k, w) :: delKeyA rest key

/-- The path concatenation of `dict_merge`:
`key if current_path == '' else '.'.join([current_path, key])`. -/
def joinPath (cur key : String) : String :=
  if cur = "" then key else cur ++ "." ++ key

/-- Python `s.split('.')`: splitting an empty string gives `[""]`,
separators at the ends or adjacent separators give empty segments. -/
def pySplit (s : String) : List String :=
  go s.data []
where
  go : List Char → List Char → List String
    | [], acc => [String.mk acc.reverse]
    | c :: rest, acc =>
        if c = '.' then String.mk acc.reverse :: go rest []
        else go rest (c :: acc)

/-- Python `p == s[:len(p)]`: textual prefix test. -/
def strPrefix (p s : String) : Bool :=
  List.isPrefixOf p.data s.data

/-- Python `s[n:]`: drop the first `n` characters. -/
def strDrop (s : String) (n : Nat) : String :=
  String.mk (s.data.drop n)

/-- Python `a < b` on strings: lexicographic comparison by code point. -/
def strLt (a b : String) : Bool :=
  go a.data b.data
where
  go : List Char → List Char → Bool
    | [], [] => false
    | [], _ :: _ => true
    | _ :: _, [] => false
    | c :: cs, d :: ds => if c = d then go cs ds else decide (c < d)

mutual

/-- `dict_merge(target, source, changes, current_path)` from
`config.py`.  Recursively merges `source` into `target`; `deepcopy`
is the identity in the pure model.  Returns the mutated target and the
final `changes` list (Python appends to `changes` in place); the body
of the `for key in source` loop is split off as `dmStep`. -/
def dict_merge (target : List (String × Val)) (source : List (String × Val))
    (changes : List String) (current_path : String) :
    List (String × Val) × List String :=
  match source with
  | [] => (target, changes)
  | (key, sv) :: rest =>
      match dmStep target key sv changes current_path with
      | (t2, ch2) => dict_merge t2 rest ch2 current_path

/-- One iteration of the `dict_merge` loop, for the key `key` with
source value `sv`: recurse when both sides hold dicts, otherwise
overwrite `target[key]` and record `current_path` as changed. -/
def dmStep (target : List (String × Val)) (key : String) (sv : Val)
    (changes : List String) (current_path : String) :
    List (String × Val) × List String :=
  match lookupA target key, sv with
  | some (Val.vMap tm), Val.vMap sm =>
      match dict_merge tm sm changes (joinPath current_path key) with
      | (m2, ch2) => (setKeyA target key (Val.vMap m2), ch2)
  | _, _ => (setKeyA target key sv, changes ++ [current_path])

end

/-- Every error surface of the Python code.  `ycError tag` stands for
`raise YcError(...)` with the given message template; `keyError`,
`indexError` and `typeError` are the corresponding native Python
exceptions; `recursionError` stands for Python's `RecursionError` on
unboundedly deep `__INCLUDE__` recursion (the model's fuel running out). -/
inductive Err where
  | ycError (tag : String)
  | keyError
  | indexError
  | typeError
  | recursionError
deriving DecidableEq, Repr

/-- Substring test on character lists: Python's `needle in haystack`
for strings. -/
def isInfx (n : List Char) : List Char → Bool
  | [] => n.isEmpty
  | c :: t => List.isPrefixOf n (c :: t) || isInfx n t

/-- Python `key in v` — well-defined on dicts (key membership) and on
strings (substring test), a `TypeError` on an integer. -/
def pyContains (v : Val) (key : String) : Except Err Bool :=
  match v with
  | .vMap m => .ok (lookupA m key).isSome
  | .vStr s => .ok (isInfx key.toList s.toList)
  | .vInt _ => .error .typeError

/-- Python `v[key]` with a string key — dict indexing; indexing a
string (or an int) by a string raises `TypeError`. -/
def pyIndex (v : Val) (key : String) : Except Err Val :=
  match v with
  | .vMap m =>
      match lookupA m key with
      | some x => .ok x
      | none => .error .keyError
  | _ => .error .typeError

/-- Provenance kinds of a patch: `'file'`, `'resource'`, `'dict'`. -/
inductive PKind where
  | file
  | res
  | dict
deriving DecidableEq, Repr

/-- One entry of `self.patch_list`: the per-load provenance record.
The Python dict keys `'type'`, `'file-name'`, `'resource'`,
`'package'`, `'branch'`, `'changed'`, `'patch'` become fields
(`content` holds the `'patch'` key, the raw loaded sub-tree). -/
structure Patch where
  kind : PKind
  fileName : Option Val
  resource : Option Val
  package : Option String
  branch : String
  changed : Bool
  content : List (String × Val)
deriving DecidableEq, Repr

instance : Inhabited Patch := ⟨⟨.dict, none, none, none, "", false, []⟩⟩

/-- The mutable state of a `YamlConfig` object: the consolidated tree
`self.maps`, the provenance list `self.patch_list` and the sorted index
`self.patch_locations` of `(changed path, patch index)` pairs. -/
structure Store where
  maps : List (String × Val)
  patch_list : List Patch
  patch_locations : List (String × Nat)
deriving DecidableEq, Repr

/-- The empty state every `YamlConfig.__init__` starts from. -/
def Store.empty : Store := ⟨[], [], []⟩

/-- The external loading capability behind `load_yaml`: what
`yaml.load` of the named file, or of the named resource in the given
package, parses to.  `.error` models an I/O or scanner failure of the
host environment. -/
structure Env where
  files : String → Except Err Val
  resources : Option String → String → Except Err Val

/-- `load_yaml(file_name, resource, package)` from `config.py`: read
and parse the file if a file name is given, the resource otherwise;
then reject parses whose root is not a dictionary. -/
def load_yamlM (env : Env) (file_name : Option Val) (resource : Option Val)
    (package : Option String) : Except Err (List (String × Val)) :=
  let parsed :=
    match file_name with
    | some (Val.vStr f) => env.files f
    | some _ => .error .typeError
    | none =>
        match resource with
        | some (Val.vStr r) => env.resources package r
        | some _ => .error .typeError
        | none => .error .typeError
  match parsed with
  | .error e => .error e
  | .ok (Val.vMap m) => .ok m
  | .ok _ => .error (.ycError "load_yaml: yaml source should map to a dictionary")

/-- The branch-locating loop of `patch()`:
`for key in branch.split('.'): if key in target: target = target[key]
else: raise YcError('Cannot locate branch ...')`. -/
def walkBranch (v : Val) : List String → Except Err Val
  | [] => .ok v
  | k :: rest =>
      match pyContains v k with
      | .error e => .error e
      | .ok false => .error (.ycError "Cannot locate branch")
      | .ok true =>
          match pyIndex v k with
          | .error e => .error e
          | .ok nxt => walkBranch nxt rest

/-- Write `newv` back at the node reached by `segs` (functional image
of Python's in-place mutation through the alias produced by the
branch-locating loop; callers only use it on navigable paths). -/
def updAt : Val → List String → Val → Val
  | _, [], newv => newv
  | .vMap m, k :: rest, newv =>
      match lookupA m k with
      | some x => .vMap (setKeyA m k (updAt x rest newv))
      | none => .vMap m
  | v, _ :: _, _ => v

/-- `bisect.insort` on the sorted list of `(path, patch index)` pairs,
with Python's lexicographic tuple order. -/
def insortLoc : List (String × Nat) → (String × Nat) → List (String × Nat)
  | [], p => [p]
  | q :: rest, p =>
      if strLt p.1 q.1 ∨ (p.1 = q.1 ∧ p.2 < q.2) then p :: q :: rest
      else q :: insortLoc rest p


/-- Coerce a value known to be a dict back to its entry list (the
callers below only apply it to `vMap` values). -/
def asMap : Val → List (String × Val)
  | .vMap m => m
  | _ => []

/-- `for sub_branch, location in includes.items(): self.patch(...)`:
fold the recursive `patch()` call `step` over the include entries,
stopping at the first failure (a raised exception aborts the loop). -/
def includeLoopF (step : Store → String → Val → Store × Except Err Unit) :
    Store → List (String × Val) → Store × Except Err Unit
  | st, [] => (st, .ok ())
  | st, (sub, location) :: rest =>
      match step st sub location with
      | (st2, .ok _) => includeLoopF step st2 rest
      | r => r

/-- The `__INCLUDE__` block at the end of `patch()`: test the merged
target node `tv` (sitting at `segs` in the consolidated tree) for the
directive key, read it, delete it from the consolidated tree, then fire
one recursive `patch()` (the `step` argument) per entry. -/
def processIncludes (step : Store → String → Val → Store × Except Err Unit)
    (st : Store) (segs : List String) (tv : Val) : Store × Except Err Unit :=
  match pyContains tv "__INCLUDE__" with
  | .error e => (st, .error e)
  | .ok false => (st, .ok ())
  | .ok true =>
      match pyIndex tv "__INCLUDE__" with
      | .error e => (st, .error e)
      | .ok includes =>
          let st3 : Store := { st with
            maps := asMap (updAt (Val.vMap st.maps) segs
              (Val.vMap (delKeyA (asMap tv) "__INCLUDE__"))) }
          match includes with
          | Val.vMap incs => includeLoopF step st3 incs
          | _ => (st3, .error .typeError)

/-- `YamlConfig.patch(file_name, resource, package, patch_dict, branch)`.

The state threads explicitly; the second component reports normal
return or the Python exception raised, with the first component holding
whatever the object looks like at that moment (mutations made before a
raise persist, as in Python).  `file_name` and `resource` are raw
values because the `__INCLUDE__` loop passes arbitrary loaded values on
to the recursive call (`open` of a non-string raises `TypeError` inside
`load_yaml`); `fuel` bounds the include recursion depth the way
Python's interpreter stack does. -/
def patchM (env : Env) : Nat → Store → Option Val → Option Val → Option String →
    Option (List (String × Val)) → Option String → Store × Except Err Unit
  | 0, st, _, _, _, _, _ => (st, .error .recursionError)
  | Nat.succ fuel, st, file_name, resource, package, patch_dict, branchArg =>
    let branch := branchArg.getD ""
    let segs : List String := match branchArg with
      | none => []
      | some b => pySplit b
    match walkBranch (Val.vMap st.maps) segs with
    | .error e => (st, .error e)
    | .ok targetV =>
      let patch_location := st.patch_list.length
      let loaded : Except Err Patch :=
        match patch_dict with
        | some d => .ok ⟨.dict, none, none, none, branch, false, d⟩
        | none =>
            match load_yamlM env file_name resource package with
            | .error e => .error e
            | .ok m =>
                match file_name with
                | some f => .ok ⟨.file, some f, none, none, branch, false, m⟩
                | none => .ok ⟨.res, none, resource, package, branch, false, m⟩
      match loaded with
      | .error e => (st, .error e)
      | .ok rec =>
        let st1 : Store := { st with patch_list := st.patch_list ++ [rec] }
        let step : Store → String → Val → Store × Except Err Unit :=
          fun st9 sub location =>
            match file_name with
            | some _ =>
                patchM env fuel st9 (some location) none none none
                  (some (branch ++ "." ++ sub))
            | none =>
                patchM env fuel st9 none (some location) package none
                  (some (joinPath branch sub))
        match targetV with
        | Val.vMap tm =>
            match dict_merge tm rec.content [] branch with
            | (merged, changes) =>
              let st2 : Store := { st1 with
                maps := asMap (updAt (Val.vMap st1.maps) segs (Val.vMap merged)),
                patch_locations := changes.foldl
                  (fun l c => insortLoc l (c, patch_location)) st1.patch_locations }
              processIncludes step st2 segs (Val.vMap merged)
        | tv =>
            if rec.content.isEmpty then processIncludes step st1 segs tv
            else (st1, .error .typeError)

/-- The walking loop of `get_section`: follow the dot-separated path
through the consolidated tree, `None` (here `Option.none`) as soon as a
segment is not a member of the current node. -/
def gsWalk (v : Val) : List String → Except Err (Option Val)
  | [] => .ok (some v)
  | s :: rest =>
      match pyContains v s with
      | .error e => .error e
      | .ok false => .ok none
      | .ok true =>
          match pyIndex v s with
          | .error e => .error e
          | .ok nxt => gsWalk nxt rest

/-- `YamlConfig.get_section(path, must_exist)`. -/
def get_sectionM (st : Store) (path : String) (must_exist : Bool) :
    Except Err (Option Val) :=
  match gsWalk (Val.vMap st.maps) (pySplit path) with
  | .error e => .error e
  | .ok found =>
      if must_exist then
        match found with
        | some (Val.vMap m) => .ok (some (Val.vMap m))
        | _ => .error (.ycError "YamlConfig.get_section, path not found or not a dict")
      else .ok found

/-- `YamlConfig.get_value(path, key, default)`. -/
def get_valueM (st : Store) (path key : String) (default : Val) : Except Err Val :=
  match get_sectionM st path false with
  | .error e => .error e
  | .ok none => .ok default
  | .ok (some branchv) =>
      match pyContains branchv key with
      | .error e => .error e
      | .ok true => pyIndex branchv key
      | .ok false => .ok default

/-- The loop of lines 248-250 of `config.py`, run over the reversed
index list: `for loc, pair in enumerate(reversed(patch_locations))`
breaking at the first pair whose recorded path is a textual prefix of
`path`.  Returns the enumerate counter where the loop stopped — the
position of the first hit, or the final counter value `length - 1`
when the loop runs out without a hit. -/
def scanRev : List (String × Nat) → String → Nat
  | [], _ => 0
  | [_], _ => 0
  | pr :: q :: rest, path =>
      if strPrefix pr.1 path then 0 else scanRev (q :: rest) path + 1

/-- Lines 247-253 of `config.py`: scan `reversed(self.patch_locations)`
for the first pair whose recorded path is a textual prefix of `path`,
convert the reverse position back to a forward index
(`loc = len(patch_locations) - loc - 1`, which is `0` when nothing
matched), and raise the `patch for path not found` error when the
winning index is nonzero and its recorded path is not exactly `path`.
An empty index leaves Python's scan variable at its initialisation,
producing `patch_locations[-2]` — an `IndexError`. -/
def resolve_loc (locs : List (String × Nat)) (path : String) : Except Err Nat :=
  match locs with
  | [] => .error .indexError
  | _ =>
    let loc := locs.length - scanRev locs.reverse path - 1
    if loc ≠ 0 ∧ (locs.getD loc ("", 0)).1 ≠ path then
      .error (.ycError "YamlConfig.get_patch, patch for path not found")
    else .ok loc

/-- Lines 259-264 of `config.py`: walk the owning patch's own content
copy along the suffix segments (`if node not in patch_node: raise`,
then `patch_node = patch_node[node]`). -/
def svTrace (v : Val) : List String → Except Err Val
  | [] => .ok v
  | node :: rest =>
      match pyContains v node with
      | .error e => .error e
      | .ok false => .error (.ycError "YamlConfig.get_patch, unable to trace path at node")
      | .ok true =>
          match pyIndex v node with
          | .error e => .error e
          | .ok nxt => svTrace nxt rest

/-- `YamlConfig.set_value(path, key, value)`.  Returns the state after
the call together with either the raised exception or Python's return
value `(previous, patch['type'] == 'file')`.  The owning patch's
content copy is mutated and its dirty flag set *before* the
consolidated tree is touched, so a late failure leaves the two halves
out of step — exactly as in the Python original. -/
def set_valueM (st : Store) (path key : String) (value : Val) :
    Store × Except Err (Val × Bool) :=
  if value.isMap then
    (st, .error (.ycError "YamlConfig.setValue, replacement value may not be a dict"))
  else
    match resolve_loc st.patch_locations path with
    | .error e => (st, .error e)
    | .ok loc =>
      let pidx := (st.patch_locations.getD loc ("", 0)).2
      match st.patch_list[pidx]? with
      | none => (st, .error .indexError)
      | some patch =>
        let prefx := patch.branch
        if path.length < prefx.length ∨ ¬ strPrefix prefx path then
          (st, .error (.ycError "YamlConfig.get_patch, branch prefix is not a prefix to path"))
        else
          let navSegs : List String :=
            if prefx.length < path.length then pySplit (strDrop path prefx.length)
            else []
          match svTrace (Val.vMap patch.content) navSegs with
          | .error e => (st, .error e)
          | .ok (Val.vMap pm) =>
              let patch2 : Patch := { patch with
                content := asMap (updAt (Val.vMap patch.content) navSegs
                  (Val.vMap (setKeyA pm key value))),
                changed := true }
              let st2 : Store := { st with patch_list := st.patch_list.set pidx patch2 }
              match get_sectionM st2 path true with
              | .error e => (st2, .error e)
              | .ok (some (Val.vMap sec)) =>
                  match lookupA sec key with
                  | none => (st2, .error .keyError)
                  | some previous =>
                      let st3 : Store := { st2 with
                        maps := asMap (updAt (Val.vMap st2.maps) (pySplit path)
                          (Val.vMap (setKeyA sec key value))) }
                      (st3, .ok (previous, patch.kind = PKind.file))
              | .ok _ => (st2, .error .keyError)
          | .ok _ => (st, .error .typeError)

/-- One per-patch outcome record of `save()` (the Python result dicts,
with `none` for keys a kind does not carry). -/
structure SaveRec where
  kind : PKind
  branch : String
  fileName : Option Val
  resource : Option Val
  package : Option String
  changed : Bool
  saved : Bool
  error : Option String
deriving DecidableEq, Repr

/-- The filesystem behind `save()`: opening-and-dumping to the named
file either succeeds (`none`) or raises with the given message. -/
structure WEnv where
  writeErr : String → Option String

/-- What Python's `open(None, 'w')` raises when `save()` is called
without a `file_name` argument. -/
def openNoneMsg : String :=
  "expected str, bytes or os.PathLike object, not NoneType"

/-- The body of `save()`'s loop for one patch.  Returns the result
record appended to `results`, plus the write actually performed
(destination file and dumped tree), if any.  Note the loop opens the
`file_name` *argument* of `save()` — not `patch['file-name']` — for
every dirty file patch, and never reads `all_to_root`. -/
def savePatchStep (wenv : WEnv) (file_name : Option String) (p : Patch) :
    SaveRec × List (String × List (String × Val)) :=
  match p.kind with
  | .dict => (⟨.dict, p.branch, none, none, none, p.changed, false, none⟩, [])
  | .res => (⟨.res, p.branch, none, p.resource, p.package, p.changed, false, none⟩, [])
  | .file =>
      if p.changed = false then
        (⟨.file, p.branch, p.fileName, none, none, p.changed, false, none⟩, [])
      else
        match file_name with
        | none =>
            (⟨.file, p.branch, p.fileName, none, none, p.changed, false,
              some openNoneMsg⟩, [])
        | some f =>
            match wenv.writeErr f with
            | none =>
                (⟨.file, p.branch, p.fileName, none, none, p.changed, true, none⟩,
                 [(f, p.content)])
            | some e =>
                (⟨.file, p.branch, p.fileName, none, none, p.changed, false,
                  some e⟩, [])

/-- `YamlConfig.save(all_to_root, file_name)`: iterate the patch list
in load order, collecting one result record per patch and performing
the file writes; `try/except Exception` turns every write failure into
an `error` entry of that patch's record and the loop continues. -/
def saveM (wenv : WEnv) (st : Store) (all_to_root : Bool) (file_name : Option String) :
    List SaveRec × List (String × List (String × Val)) :=
  let _ := all_to_root
  saveLoop wenv file_name st.patch_list
where
  saveLoop (wenv : WEnv) (file_name : Option String) :
      List Patch → List SaveRec × List (String × List (String × Val))
    | [] => ([], [])
    | p :: rest =>
        let r := savePatchStep wenv file_name p
        let rs := saveLoop wenv file_name rest
        (r.1 :: rs.1, r.2 ++ rs.2)

/-! ## Basic lemmas about the association-list primitives -/

theorem setKeyA_self (t : List (String × Val)) (k : String) (v : Val)
    (h : lookupA t k = some v) : setKeyA t k v = t := by
  induction t with
  | nil => simp [lookupA] at h
  | cons hd tl ih =>
      obtain ⟨k2, w⟩ := hd
      by_cases hk : k2 = k
      · subst hk
        simp [lookupA] at h
        simp [setKeyA, h]
      · simp [lookupA, hk] at h
        simp [setKeyA, hk, ih h]

/-! ## Well-formed trees: the image of real Python dictionaries -/

mutual

/-- A tree is well formed when every mapping has pairwise distinct
keys, recursively — exactly the trees a Python `dict` can denote. -/
def wfTree : List (String × Val) → Bool
  | [] => true
  | (k, v) :: rest => !(lookupA rest k).isSome && wfVal v && wfTree rest

def wfVal : Val → Bool
  | .vMap m => wfTree m
  | _ => true

end

theorem wfTree_consistent (m : List (String × Val)) (hw : wfTree m = true) :
    ∀ kv ∈ m, lookupA m kv.1 = some kv.2 ∧ wfVal kv.2 = true := by
  induction m with
  | nil => simp
  | cons hd tl ih =>
      obtain ⟨k, v⟩ := hd
      simp only [wfTree, Bool.and_eq_true, Bool.not_eq_true'] at hw
      obtain ⟨⟨hnk, hv⟩, htl⟩ := hw
      intro kv hkv
      rcases List.mem_cons.mp hkv with h | h
      · subst h; simp [lookupA, hv]
      · have := (ih htl) kv h
        have hne : k ≠ kv.1 := by
          intro he
          rw [he] at hnk
          rw [this.1] at hnk
          simp at hnk
        simp [lookupA, hne, this]

/-! ## C3: what paths the merge records -/

mutual

/-- The changed paths recorded when a tree is merged into an identical
target: one entry per non-mapping value, holding the dotted path of the
mapping that directly contains it. -/
def leafPaths : List (String × Val) → String → List String
  | [], _ => []
  | (k, v) :: rest, p => leafPathsV v (joinPath p k) p ++ leafPaths rest p

/-- Helper of `leafPaths`: a mapping value recurses under the extended
path, a non-mapping value records the containing path. -/
def leafPathsV (v : Val) (extended containing : String) : List String :=
  match v with
  | .vMap m => leafPaths m extended
  | _ => [containing]

end

theorem dmStep_both (target : List (String × Val)) (key : String)
    (tm sm : List (String × Val)) (changes : List String) (path : String)
    (hl : lookupA target key = some (Val.vMap tm)) :
    dmStep target key (Val.vMap sm) changes path =
      (setKeyA target key (Val.vMap (dict_merge tm sm changes (joinPath path key)).1),
       (dict_merge tm sm changes (joinPath path key)).2) := by
  rw [dmStep.eq_def, hl]

theorem dmStep_lookup_none (target : List (String × Val)) (key : String) (sv : Val)
    (changes : List String) (path : String) (hl : lookupA target key = none) :
    dmStep target key sv changes path = (setKeyA target key sv, changes ++ [path]) := by
  rw [dmStep.eq_def, hl]

theorem dmStep_lookup_int (target : List (String × Val)) (key : String) (n : Int)
    (sv : Val) (changes : List String) (path : String)
    (hl : lookupA target key = some (Val.vInt n)) :
    dmStep target key sv changes path = (setKeyA target key sv, changes ++ [path]) := by
  rw [dmStep.eq_def, hl]

theorem dmStep_lookup_str (target : List (String × Val)) (key : String) (s : String)
    (sv : Val) (changes : List String) (path : String)
    (hl : lookupA target key = some (Val.vStr s)) :
    dmStep target key sv changes path = (setKeyA target key sv, changes ++ [path]) := by
  rw [dmStep.eq_def, hl]

theorem dmStep_sv_int (target : List (String × Val)) (key : String) (n : Int)
    (changes : List String) (path : String) :
    dmStep target key (Val.vInt n) changes path =
      (setKeyA target key (Val.vInt n), changes ++ [path]) := by
  rw [dmStep.eq_def]
  cases hl : lookupA target key with
  | none => rfl
  | some w => cases w <;> rfl

theorem dmStep_sv_str (target : List (String × Val)) (key : String) (s : String)
    (changes : List String) (path : String) :
    dmStep target key (Val.vStr s) changes path =
      (setKeyA target key (Val.vStr s), changes ++ [path]) := by
  rw [dmStep.eq_def]
  cases hl : lookupA target key with
  | none => rfl
  | some w => cases w <;> rfl

theorem dict_merge_cons (target : List (String × Val)) (key : String) (sv : Val)
    (rest : List (String × Val)) (changes : List String) (path : String) :
    dict_merge target ((key, sv) :: rest) changes path =
      dict_merge (dmStep target key sv changes path).1 rest
        (dmStep target key sv changes path).2 path := by
  rw [dict_merge.eq_def]

theorem dict_merge_nil (target : List (String × Val)) (changes : List String)
    (path : String) : dict_merge target [] changes path = (target, changes) := by
  rw [dict_merge.eq_def]

theorem dict_merge_self_consistent (T S : List (String × Val)) (cs : List String)
    (p : String)
    (hs : ∀ kv ∈ S, lookupA T kv.1 = some kv.2 ∧ wfVal kv.2 = true) :
    dict_merge T S cs p = (T, cs ++ leafPaths S p) := by
  refine dict_merge.induct
    (fun T S cs p => (∀ kv ∈ S, lookupA T kv.1 = some kv.2 ∧ wfVal kv.2 = true) →
      dict_merge T S cs p = (T, cs ++ leafPaths S p))
    (fun T k sv cs p => lookupA T k = some sv → wfVal sv = true →
      dmStep T k sv cs p = (T, cs ++ leafPathsV sv (joinPath p k) p))
    ?_ ?_ ?_ ?_ T S cs p hs
  · intro target key changes path tm sm hl t2 ch2 hrec ih hl2 hw
    rw [hl] at hl2
    simp only [Option.some.injEq, Val.vMap.injEq] at hl2
    subst hl2
    have inner := ih (wfTree_consistent tm (by simpa [wfVal] using hw))
    rw [dmStep_both target key tm tm changes path hl, inner]
    rw [setKeyA_self target key (Val.vMap tm) hl]
    simp [leafPathsV]
  · intro t target key changes path hne hl hw
    cases t with
    | vMap sm => exact absurd rfl (hne sm sm hl)
    | vInt n =>
        rw [dmStep_sv_int, setKeyA_self target key (Val.vInt n) hl]
        simp [leafPathsV]
    | vStr s =>
        rw [dmStep_sv_str, setKeyA_self target key (Val.vStr s) hl]
        simp [leafPathsV]
  · intro target changes path _
    simp [dict_merge_nil, leafPaths]
  · intro target changes path key sv rest t2 ch2 hstep ih2 ih1 hs2
    have hk := hs2 (key, sv) (by simp)
    have step := ih2 hk.1 hk.2
    rw [hstep] at step
    obtain ⟨rfl, rfl⟩ : t2 = target ∧ ch2 = changes ++ leafPathsV sv (joinPath path key) path := by
      exact ⟨congrArg Prod.fst step, congrArg Prod.snd step⟩
    have tail := ih1 (fun kv hkv => hs2 kv (List.mem_cons_of_mem _ hkv))
    rw [dict_merge_cons, hstep, tail]
    simp [leafPaths, List.append_assoc]

theorem dict_merge_changes_ext (T S : List (String × Val)) (cs : List String)
    (p : String) :
    ∀ c ∈ (dict_merge T S cs p).2,
      c ∈ cs ∨ ∃ keys : List String, c = keys.foldl joinPath p := by
  refine dict_merge.induct
    (fun T S cs p => ∀ c ∈ (dict_merge T S cs p).2,
      c ∈ cs ∨ ∃ keys : List String, c = keys.foldl joinPath p)
    (fun T k sv cs p => ∀ c ∈ (dmStep T k sv cs p).2,
      c ∈ cs ∨ ∃ keys : List String, c = keys.foldl joinPath p)
    ?_ ?_ ?_ ?_ T S cs p
  · intro target key changes path tm sm hl t2 ch2 hrec ih c hc
    rw [dmStep_both target key tm sm changes path hl] at hc
    rcases ih c hc with h | ⟨keys, hk⟩
    · exact Or.inl h
    · exact Or.inr ⟨key :: keys, by simpa [List.foldl] using hk⟩
  · intro t target key changes path hne c hc
    have h2 : (dmStep target key t changes path).2 = changes ++ [path] := by
      cases t with
      | vMap sm =>
          cases hl : lookupA target key with
          | none => rw [dmStep_lookup_none target key _ changes path hl]
          | some w =>
              cases w with
              | vMap tm => exact absurd rfl (hne tm sm hl)
              | vInt n => rw [dmStep_lookup_int target key n _ changes path hl]
              | vStr s => rw [dmStep_lookup_str target key s _ changes path hl]
      | vInt n => rw [dmStep_sv_int]
      | vStr s => rw [dmStep_sv_str]
    rw [h2] at hc
    rcases List.mem_append.mp hc with h | h
    · exact Or.inl h
    · exact Or.inr ⟨[], by simpa using List.mem_singleton.mp h⟩
  · intro target changes path c hc
    rw [dict_merge_nil] at hc
    exact Or.inl hc
  · intro target changes path key sv rest t2 ch2 hstep ih2 ih1 c hc
    rw [dict_merge_cons, hstep] at hc
    rcases ih1 c hc with h | h
    · exact ih2 c (by rw [hstep]; exact h)
    · exact Or.inr h

/-- C3 (counterexample): merging `{a: {x: 2}}` into `{a: {x: 1}}` with
branch prefix `""` records the changed path `"a"`, which differs from
the branch prefix passed to the top-level call — refuting the claim
that every recorded changed path equals the top-level `branchPrefix`. -/
theorem C3_counterexample :
    (dict_merge [("a", Val.vMap [("x", Val.vInt 1)])]
      [("a", Val.vMap [("x", Val.vInt 2)])] [] "").2 = ["a"] ∧ ("a" : String) ≠ "" :=
  ⟨rfl, by decide⟩

/-- C3 (amended): the recursive call of `dict_merge` extends the branch
prefix with the key (`joinPath`), so every changed path the merge
records is the branch prefix extended by the chain of keys descended
through — the dotted path of the mapping that directly contains the
overwritten key — and not, in general, the top-level prefix itself. -/
theorem C3_merge_records_extended_prefixes (T S : List (String × Val))
    (cs : List String) (p : String) :
    ∀ c ∈ (dict_merge T S cs p).2,
      c ∈ cs ∨ ∃ keys : List String, c = keys.foldl joinPath p :=
  dict_merge_changes_ext T S cs p

/-- Witness for C3's amended theorem at the counterexample input: the
recorded path `"a"` is the empty prefix extended by the key chain
`["a"]`. -/
theorem C3_merge_records_extended_prefixes_witness :
    "a" ∈ ([] : List String) ∨ ∃ keys : List String, "a" = keys.foldl joinPath "" :=
  C3_merge_records_extended_prefixes
    [("a", Val.vMap [("x", Val.vInt 1)])] [("a", Val.vMap [("x", Val.vInt 2)])] [] ""
    "a" (by decide)

/-- C4 (counterexample): merging the tree `{a: 1}` into an identical
target records the changed path `""` — the changes list does not stay
empty, refuting merge idempotence with respect to change reporting. -/
theorem C4_counterexample :
    dict_merge [("a", Val.vInt 1)] [("a", Val.vInt 1)] [] "" =
      ([("a", Val.vInt 1)], [""]) ∧ ([""] : List String) ≠ [] :=
  ⟨rfl, by decide⟩

/-- C4 (amended): merging a well-formed tree into an identical target
leaves the target unchanged, but records one changed path per
non-mapping value — the dotted path of the mapping containing it
(`leafPaths`) — so the changes list stays empty only when the tree
holds no non-mapping values. -/
theorem C4_self_merge_reports_leaf_containers (T : List (String × Val))
    (cs : List String) (p : String) (hw : wfTree T = true) :
    dict_merge T T cs p = (T, cs ++ leafPaths T p) :=
  dict_merge_self_consistent T T cs p (wfTree_consistent T hw)

/-- Witness for C4's amended theorem on the tree `{a: 1}`. -/
theorem C4_self_merge_reports_leaf_containers_witness :
    dict_merge [("a", Val.vInt 1)] [("a", Val.vInt 1)] [] "" =
      ([("a", Val.vInt 1)], [] ++ leafPaths [("a", Val.vInt 1)] "") :=
  C4_self_merge_reports_leaf_containers [("a", Val.vInt 1)] [] "" (by decide)

/-- An environment with no loadable sources; dictionary patches never
consult it. -/
def noSources : Env := ⟨fun _ => .error .typeError, fun _ _ => .error .typeError⟩

/-- The walk of `get_section` restricted to mapping nodes: the section
reached, `none` when some segment is missing. -/
def walkMaps : List (String × Val) → List String → Option (List (String × Val))
  | m, [] => some m
  | m, s :: rest =>
      match lookupA m s with
      | some (Val.vMap m2) => walkMaps m2 rest
      | _ => none

/-- A path is safe for `get_value` when its walk through the
consolidated tree only ever meets mappings: each segment is either
missing (the walk stops) or leads to another mapping. -/
def safeWalk : List (String × Val) → List String → Bool
  | _, [] => true
  | m, s :: rest =>
      match lookupA m s with
      | none => true
      | some (Val.vMap m2) => safeWalk m2 rest
      | some _ => false

theorem gsWalk_safe (segs : List String) (m : List (String × Val))
    (h : safeWalk m segs = true) :
    gsWalk (Val.vMap m) segs = .ok ((walkMaps m segs).map Val.vMap) := by
  induction segs generalizing m with
  | nil => rfl
  | cons s rest ih =>
      cases hl : lookupA m s with
      | none => simp [gsWalk, pyContains, pyIndex, walkMaps, hl]
      | some w =>
          cases w with
          | vMap m2 =>
              have h2 : safeWalk m2 rest = true := by
                have := h
                simp only [safeWalk, hl] at this
                exact this
              simp [gsWalk, pyContains, pyIndex, walkMaps, hl, ih m2 h2]
          | vInt n =>
              exfalso
              simp only [safeWalk, hl] at h
              exact Bool.false_ne_true h
          | vStr s2 =>
              exfalso
              simp only [safeWalk, hl] at h
              exact Bool.false_ne_true h

/-- The store obtained by constructing a `YamlConfig` from the
dictionary `{a: 1}`. -/
def storeFlat : Store :=
  (patchM noSources 2 Store.empty none none none (some [("a", Val.vInt 1)]) none).1

/-- C7 (counterexample): `get_value` does **not** never-fail — on the
store built from `{a: 1}`, `get_value("a.b", "k", 0)` walks into the
scalar at `a` and Python's membership test on an integer raises
`TypeError`. -/
theorem C7_counterexample :
    get_valueM storeFlat "a.b" "k" (Val.vInt 0) = .error .typeError ∧
      storeFlat.maps = [("a", Val.vInt 1)] :=
  ⟨rfl, rfl⟩

/-- C7 (amended): `get_value(path, key, default)` returns the value at
the section and key, or the default when section or key is absent, and
does not raise — provided the walk along `path` meets only mappings
(`safeWalk`); when the walk reaches a non-mapping node and tests
membership in it, a `TypeError` propagates instead. -/
theorem C7_get_value_total_on_safe_paths (st : Store) (path key : String) (d : Val)
    (h : safeWalk st.maps (pySplit path) = true) :
    get_valueM st path key d =
      .ok (match walkMaps st.maps (pySplit path) with
        | some sec => (lookupA sec key).getD d
        | none => d) := by
  unfold get_valueM get_sectionM
  rw [gsWalk_safe (pySplit path) st.maps h]
  cases hw : walkMaps st.maps (pySplit path) with
  | none => simp
  | some sec =>
      simp only [Option.map_some]
      cases hk : lookupA sec key with
      | none => simp [pyContains, pyIndex, hk]
      | some v => simp [pyContains, pyIndex, hk]

/-- Witness for C7's amended theorem: on the `{a: 1}` store the path
`"b"` stops at a missing key, so the default comes back untouched. -/
theorem C7_get_value_total_on_safe_paths_witness :
    get_valueM storeFlat "b" "k" (Val.vInt 7) =
      .ok (match walkMaps storeFlat.maps (pySplit "b") with
        | some sec => (lookupA sec "k").getD (Val.vInt 7)
        | none => Val.vInt 7) :=
  C7_get_value_total_on_safe_paths storeFlat "b" "k" (Val.vInt 7) (by decide)

theorem get_sectionM_true_walk (st : Store) (path : String) (sec : List (String × Val))
    (h : get_sectionM st path true = .ok (some (Val.vMap sec))) :
    gsWalk (Val.vMap st.maps) (pySplit path) = .ok (some (Val.vMap sec)) := by
  unfold get_sectionM at h
  cases hw : gsWalk (Val.vMap st.maps) (pySplit path) with
  | error e => rw [hw] at h; simp at h
  | ok found =>
      rw [hw] at h
      cases found with
      | none => simp at h
      | some v =>
          cases v with
          | vMap m => simpa using congrArg (fun x => (x : Except Err (Option Val))) h
          | vInt n => simp at h
          | vStr s => simp at h

theorem set_value_ok_shape (st : Store) (path key : String) (value : Val)
    (st2 : Store) (prev : Val) (b : Bool)
    (h : set_valueM st path key value = (st2, .ok (prev, b))) :
    (∀ d, get_valueM st path key d = .ok prev) ∧
    ∃ loc patch, resolve_loc st.patch_locations path = .ok loc ∧
      st.patch_list[(st.patch_locations.getD loc ("", 0)).2]? = some patch ∧
      b = decide (patch.kind = PKind.file) := by
  unfold set_valueM at h
  split at h
  · simp [Prod.ext_iff] at h
  split at h
  · simp [Prod.ext_iff] at h
  rename_i loc hr
  simp only [] at h
  split at h
  · simp [Prod.ext_iff] at h
  rename_i patch hp
  split at h
  · simp [Prod.ext_iff] at h
  split at h
  · simp [Prod.ext_iff] at h
  case _ pm htr =>
    split at h
    · simp [Prod.ext_iff] at h
    case _ sec hgs =>
      split at h
      · simp [Prod.ext_iff] at h
      case _ previous hk =>
        simp only [Prod.ext_iff, Except.ok.injEq, Prod.mk.injEq] at h
        obtain ⟨-, hprev, hb⟩ := h
        subst hprev
        subst hb
        refine ⟨?_, loc, patch, hr, hp, rfl⟩
        intro d
        have hwalk := get_sectionM_true_walk _ path sec hgs
        unfold get_valueM get_sectionM
        rw [show (Store.maps { st with
          patch_list := st.patch_list.set (st.patch_locations.getD loc ("", 0)).2
            { patch with
              content := asMap (updAt (Val.vMap patch.content)
                (if patch.branch.length < path.length then
                  pySplit (strDrop path patch.branch.length) else [])
                (Val.vMap (setKeyA pm key value))),
              changed := true } }) = st.maps from rfl] at hwalk
        rw [hwalk]
        simp [pyContains, pyIndex, hk]
    case _ hne => simp [Prod.ext_iff] at h
  case _ hne => simp [Prod.ext_iff] at h

/-- The store `Construct({dict: {"root": {"branch": {"value": 0}}}})`. -/
def storeC9 : Store :=
  (patchM noSources 2 Store.empty none none none
    (some [("root", Val.vMap [("branch", Val.vMap [("value", Val.vInt 0)])])]) none).1

/-- C9: on success `set_value(path, key, value)` returns the pair of
the previous consolidated value at that path and key and the flag
telling whether the owning patch is file-kind; in particular on the
store built from `{root: {branch: {value: 0}}}`,
`set_value("root.branch", "value", 2)` returns `(0, false)` and
`get_value("root.branch", "value")` afterwards returns `2`. -/
theorem C9_set_value_returns_previous_and_kind :
    (set_valueM storeC9 "root.branch" "value" (Val.vInt 2)).2 =
        .ok (Val.vInt 0, false) ∧
    get_valueM (set_valueM storeC9 "root.branch" "value" (Val.vInt 2)).1
        "root.branch" "value" (Val.vInt 99) = .ok (Val.vInt 2) ∧
    ∀ (st : Store) (path key : String) (value : Val) (st2 : Store) (prev : Val)
      (b : Bool), set_valueM st path key value = (st2, .ok (prev, b)) →
        (∀ d, get_valueM st path key d = .ok prev) ∧
        ∃ loc patch, resolve_loc st.patch_locations path = .ok loc ∧
          st.patch_list[(st.patch_locations.getD loc ("", 0)).2]? = some patch ∧
          b = decide (patch.kind = PKind.file) :=
  ⟨rfl, rfl, set_value_ok_shape⟩

/-- Witness for C9's general clause, applied at the scenario store:
the previous value `0` is what `get_value` reported before the edit,
and the owning patch is the dict patch, so the flag is `false`. -/
theorem C9_set_value_returns_previous_and_kind_witness :
    (∀ d, get_valueM storeC9 "root.branch" "value" d = .ok (Val.vInt 0)) ∧
    ∃ loc patch, resolve_loc storeC9.patch_locations "root.branch" = .ok loc ∧
      storeC9.patch_list[(storeC9.patch_locations.getD loc ("", 0)).2]? = some patch ∧
      false = decide (patch.kind = PKind.file) :=
  C9_set_value_returns_previous_and_kind.2.2 storeC9 "root.branch" "value" (Val.vInt 2)
    (set_valueM storeC9 "root.branch" "value" (Val.vInt 2)).1 (Val.vInt 0) false rfl

/-- A store holding three root dict patches: `{a: {b: {k: 1}}}`, then
`{a: {b: {k: 2}}}` (recording changed path `a.b`), then `{a: {b: 5}}`
(overwriting the dict at `a.b` with a scalar, recording `a`). -/
def storeC10 : Store :=
  (patchM noSources 2
    (patchM noSources 2
      (patchM noSources 2 Store.empty none none none
        (some [("a", Val.vMap [("b", Val.vMap [("k", Val.vInt 1)])])]) none).1
      none none none
      (some [("a", Val.vMap [("b", Val.vMap [("k", Val.vInt 2)])])]) none).1
    none none none (some [("a", Val.vMap [("b", Val.vInt 5)])]) none).1

/-- C10: `set_value` is not atomic on error.  On `storeC10`,
`set_value("a.b", "k", 9)` resolves (via the exact index entry
`("a.b", 1)`) to the second patch, mutates that patch's content copy to
`k: 9` and marks it dirty, and only then fails in
`get_section(path, must_exist=true)` because the consolidated tree now
holds the scalar `5` at `a.b` — leaving the patch mutated and dirty
while the consolidated tree is unchanged. -/
theorem C10_set_value_not_atomic :
    (set_valueM storeC10 "a.b" "k" (Val.vInt 9)).2 =
        .error (.ycError "YamlConfig.get_section, path not found or not a dict") ∧
    storeC10.patch_list[1]? = some ⟨.dict, none, none, none, "", false,
        [("a", Val.vMap [("b", Val.vMap [("k", Val.vInt 2)])])]⟩ ∧
    (set_valueM storeC10 "a.b" "k" (Val.vInt 9)).1.patch_list[1]? =
        some ⟨.dict, none, none, none, "", true,
          [("a", Val.vMap [("b", Val.vMap [("k", Val.vInt 9)])])]⟩ ∧
    (set_valueM storeC10 "a.b" "k" (Val.vInt 9)).1.maps = storeC10.maps :=
  ⟨rfl, rfl, rfl, rfl⟩

theorem scanRev_stops_at_first_hit :
    (R : List (String × Nat)) → (path : String) → (i : Nat) → i < R.length →
    strPrefix (R.getD i ("", 0)).1 path = true →
    (∀ j, j < i → strPrefix (R.getD j ("", 0)).1 path = false) →
    scanRev R path = i
  | [], _, i, hi, _, _ => by simp at hi
  | [pr], path, i, hi, hm, _ => by
      obtain rfl : i = 0 := by
        simpa using Nat.lt_one_iff.mp (by simpa using hi)
      rfl
  | pr :: q :: rest, path, i, hi, hm, hb => by
      cases hp : strPrefix pr.1 path with
      | true =>
          cases i with
          | zero => simp [scanRev, hp]
          | succ i2 =>
              have h0 := hb 0 (Nat.succ_pos i2)
              rw [List.getD_cons_zero] at h0
              rw [h0] at hp
              exact absurd hp (by simp)
      | false =>
          cases i with
          | zero =>
              rw [List.getD_cons_zero] at hm
              rw [hm] at hp
              exact absurd hp (by simp)
          | succ i2 =>
              have ih := scanRev_stops_at_first_hit (q :: rest) path i2
                (by simpa using Nat.lt_of_succ_lt_succ hi)
                (by rw [List.getD_cons_succ] at hm; exact hm)
                (fun j hj => by
                  have := hb (j + 1) (Nat.succ_lt_succ hj)
                  rw [List.getD_cons_succ] at this
                  exact this)
              simp [scanRev, hp, ih]

theorem scanRev_no_hit :
    (R : List (String × Nat)) → (path : String) →
    (∀ j, j < R.length → strPrefix (R.getD j ("", 0)).1 path = false) →
    scanRev R path = R.length - 1
  | [], _, _ => rfl
  | [pr], _, _ => rfl
  | pr :: q :: rest, path, hnone => by
      have h0 := hnone 0 (by simp)
      rw [List.getD_cons_zero] at h0
      have ih := scanRev_no_hit (q :: rest) path
        (fun j hj => by
          have := hnone (j + 1) (by simpa using Nat.succ_lt_succ hj)
          rw [List.getD_cons_succ] at this
          exact this)
      simp [scanRev, h0, ih]

theorem scanRev_earlier_miss :
    (R : List (String × Nat)) → (path : String) → (j : Nat) →
    j < scanRev R path → strPrefix (R.getD j ("", 0)).1 path = false
  | [], _, j, hj => by simp [scanRev] at hj
  | [pr], _, j, hj => by simp [scanRev] at hj
  | pr :: q :: rest, path, j, hj => by
      cases hp : strPrefix pr.1 path with
      | true => simp [scanRev, hp] at hj
      | false =>
          cases j with
          | zero => rw [List.getD_cons_zero]; exact hp
          | succ j2 =>
              have hj2 : j2 < scanRev (q :: rest) path := by
                simp [scanRev, hp] at hj
                omega
              rw [List.getD_cons_succ]
              exact scanRev_earlier_miss (q :: rest) path j2 hj2

theorem scanRev_le (R : List (String × Nat)) (path : String) :
    scanRev R path ≤ R.length - 1 := by
  induction R with
  | nil => simp [scanRev]
  | cons pr rest ih =>
      cases rest with
      | nil => simp [scanRev]
      | cons q rest2 =>
          by_cases hp : strPrefix pr.1 path = true
          · simp [scanRev, hp]
          · rw [Bool.not_eq_true] at hp
            simp only [scanRev, hp, Bool.false_eq_true, if_false, List.length_cons]
            simp only [List.length_cons] at ih
            omega

theorem getD_reverse (l : List (String × Nat)) (j : Nat) (hj : j < l.length)
    (d : String × Nat) : l.reverse.getD j d = l.getD (l.length - 1 - j) d := by
  rw [List.getD_eq_getElem _ _ (by simpa using hj), List.getElem_reverse,
    List.getD_eq_getElem _ _ (by omega)]

theorem resolve_loc_cons (pr : String × Nat) (rest : List (String × Nat))
    (path : String) :
    resolve_loc (pr :: rest) path =
      (if (pr :: rest).length - scanRev (pr :: rest).reverse path - 1 ≠ 0 ∧
          ((pr :: rest).getD
            ((pr :: rest).length - scanRev (pr :: rest).reverse path - 1)
            ("", 0)).1 ≠ path
        then .error (.ycError "YamlConfig.get_patch, patch for path not found")
        else .ok ((pr :: rest).length - scanRev (pr :: rest).reverse path - 1)) :=
  rfl

theorem resolve_loc_no_prefix_hit (locs : List (String × Nat)) (path : String)
    (hne : locs ≠ [])
    (hmiss : ∀ j, j < locs.length → strPrefix (locs.getD j ("", 0)).1 path = false) :
    resolve_loc locs path = .ok 0 := by
  cases locs with
  | nil => exact absurd rfl hne
  | cons pr rest =>
      have hlr : (pr :: rest).reverse.length = (pr :: rest).length :=
        List.length_reverse _
      have hrev : ∀ j, j < (pr :: rest).reverse.length →
          strPrefix ((pr :: rest).reverse.getD j ("", 0)).1 path = false := by
        intro j hj
        rw [hlr] at hj
        rw [getD_reverse (pr :: rest) j hj]
        exact hmiss _ (by omega)
      have hs := scanRev_no_hit (pr :: rest).reverse path hrev
      rw [resolve_loc_cons, hs, hlr]
      have harith : (pr :: rest).length - ((pr :: rest).length - 1) - 1 = 0 := by
        have : (pr :: rest).length ≥ 1 := by simp
        omega
      rw [harith]
      rw [if_neg (by simp)]

theorem resolve_loc_ok_exact_or_zero (locs : List (String × Nat)) (path : String)
    (i : Nat) (h : resolve_loc locs path = .ok i) :
    i = 0 ∨ (locs.getD i ("", 0)).1 = path := by
  cases locs with
  | nil => simp [resolve_loc] at h
  | cons pr rest =>
      rw [resolve_loc_cons] at h
      split at h
      · simp at h
      · rename_i hcond
        push_neg at hcond
        simp only [Except.ok.injEq] at h
        rw [← h]
        by_cases hz : (pr :: rest).length - scanRev (pr :: rest).reverse path - 1 = 0
        · exact Or.inl hz
        · exact Or.inr (hcond hz)

theorem resolve_loc_ok_is_last_hit (locs : List (String × Nat)) (path : String)
    (i : Nat) (h : resolve_loc locs path = .ok i) :
    ∀ j, i < j → j < locs.length → strPrefix (locs.getD j ("", 0)).1 path = false := by
  cases locs with
  | nil => simp [resolve_loc] at h
  | cons pr rest =>
      have hlr : (pr :: rest).reverse.length = (pr :: rest).length :=
        List.length_reverse _
      rw [resolve_loc_cons] at h
      have hi : i = (pr :: rest).length - scanRev (pr :: rest).reverse path - 1 := by
        split at h
        · simp at h
        · simpa using h.symm
      intro j hij hj
      have hsle := scanRev_le (pr :: rest).reverse path
      rw [hlr] at hsle
      have hrj : (pr :: rest).length - 1 - j < scanRev (pr :: rest).reverse path := by
        omega
      have hmiss := scanRev_earlier_miss (pr :: rest).reverse path _ hrj
      rw [getD_reverse (pr :: rest) _ (by omega)] at hmiss
      have harith : (pr :: rest).length - 1 - ((pr :: rest).length - 1 - j) = j := by
        omega
      rw [harith] at hmiss
      exact hmiss

theorem resolve_loc_raises_on_nonzero_strict_prefix (locs : List (String × Nat))
    (path : String) (i : Nat) (hi : i < locs.length)
    (hhit : strPrefix (locs.getD i ("", 0)).1 path = true)
    (hz : i ≠ 0) (hne : (locs.getD i ("", 0)).1 ≠ path)
    (hlast : ∀ j, i < j → j < locs.length → strPrefix (locs.getD j ("", 0)).1 path = false) :
    resolve_loc locs path =
      .error (.ycError "YamlConfig.get_patch, patch for path not found") := by
  cases locs with
  | nil => simp at hi
  | cons pr rest =>
      have hlr : (pr :: rest).reverse.length = (pr :: rest).length :=
        List.length_reverse _
      have hs : scanRev (pr :: rest).reverse path = (pr :: rest).length - 1 - i := by
        refine scanRev_stops_at_first_hit (pr :: rest).reverse path _
          (by rw [hlr]; omega) ?_ ?_
        · rw [getD_reverse (pr :: rest) _ (by omega)]
          have harith : (pr :: rest).length - 1 - ((pr :: rest).length - 1 - i) = i := by
            omega
          rw [harith]
          exact hhit
        · intro j hj
          rw [getD_reverse (pr :: rest) _ (by omega)]
          exact hlast _ (by omega) (by omega)
      rw [resolve_loc_cons, hs]
      have harith : (pr :: rest).length - ((pr :: rest).length - 1 - i) - 1 = i := by
        omega
      rw [harith]
      rw [if_pos ⟨hz, hne⟩]

/-- A store with patches loaded at branches `""` and `"steps.load"`:
first `{steps: {load: {}}}` at the root, then `{parameters: {x: 0}}`
at branch `steps.load`.  Its recorded changed paths are exactly `""`
and `"steps.load"`. -/
def storeC1 : Store :=
  (patchM noSources 2
    (patchM noSources 2 Store.empty none none none
      (some [("steps", Val.vMap [("load", Val.vMap [])])]) none).1
    none none none
    (some [("parameters", Val.vMap [("x", Val.vInt 0)])]) (some "steps.load")).1

/-- C1 (counterexample): on `storeC1` — whose recorded changed paths
are `""` and `"steps.load"`, both textual prefixes of
`"steps.load.parameters"` — `set_value("steps.load.parameters", "x", 1)`
raises `PatchNotFound` and leaves the store untouched: it neither
resolves to the `steps.load` patch nor restricts the failure to the
no-prefix-entry situation the claim describes. -/
theorem C1_counterexample :
    storeC1.patch_locations = [("", 0), ("steps.load", 1)] ∧
    strPrefix "" "steps.load.parameters" = true ∧
    strPrefix "steps.load" "steps.load.parameters" = true ∧
    set_valueM storeC1 "steps.load.parameters" "x" (Val.vInt 1) =
      (storeC1, .error (.ycError "YamlConfig.get_patch, patch for path not found")) :=
  ⟨rfl, rfl, rfl, rfl⟩

/-- C1 (amended): the reverse scan resolves to the **last** index
entry whose recorded path textually prefixes the given path; when no
entry is a prefix the resolved index is `0` and no error is raised;
`PatchNotFound` is raised exactly when the winning entry sits at a
nonzero resolved index and its recorded path differs from the given
path.  Consequently a successful resolution is either index `0` or an
exact-path entry; on `storeC1`, `set_value("steps.load", ...)` — whose
path equals the recorded entry — does resolve to the `steps.load`
patch and succeeds. -/
theorem C1_resolution_characterised :
    (∀ path : String, resolve_loc [] path = .error .indexError) ∧
    (∀ (locs : List (String × Nat)) (path : String), locs ≠ [] →
      (∀ j, j < locs.length → strPrefix (locs.getD j ("", 0)).1 path = false) →
      resolve_loc locs path = .ok 0) ∧
    (∀ (locs : List (String × Nat)) (path : String) (i : Nat),
      resolve_loc locs path = .ok i → i = 0 ∨ (locs.getD i ("", 0)).1 = path) ∧
    (∀ (locs : List (String × Nat)) (path : String) (i : Nat),
      resolve_loc locs path = .ok i →
      ∀ j, i < j → j < locs.length → strPrefix (locs.getD j ("", 0)).1 path = false) ∧
    (∀ (locs : List (String × Nat)) (path : String) (i : Nat), i < locs.length →
      strPrefix (locs.getD i ("", 0)).1 path = true → i ≠ 0 →
      (locs.getD i ("", 0)).1 ≠ path →
      (∀ j, i < j → j < locs.length → strPrefix (locs.getD j ("", 0)).1 path = false) →
      resolve_loc locs path =
        .error (.ycError "YamlConfig.get_patch, patch for path not found")) ∧
    (set_valueM storeC1 "steps.load" "parameters" (Val.vInt 7)).2 =
      .ok (Val.vMap [("x", Val.vInt 0)], false) ∧
    (set_valueM storeC1 "steps.load" "parameters" (Val.vInt 7)).1.patch_list[1]? =
      some ⟨.dict, none, none, none, "steps.load", true, [("parameters", Val.vInt 7)]⟩ :=
  ⟨fun _ => rfl, resolve_loc_no_prefix_hit, resolve_loc_ok_exact_or_zero,
    resolve_loc_ok_is_last_hit, resolve_loc_raises_on_nonzero_strict_prefix,
    rfl, rfl⟩

/-- Witness for C1's amended theorem: applying its failure clause to
`storeC1`'s index list and the path `"steps.load.parameters"` under the
concrete hypotheses reproduces the `PatchNotFound` raise. -/
theorem C1_resolution_characterised_witness :
    resolve_loc [("", 0), ("steps.load", 1)] "steps.load.parameters" =
      .error (.ycError "YamlConfig.get_patch, patch for path not found") :=
  C1_resolution_characterised.2.2.2.2.1 [("", 0), ("steps.load", 1)]
    "steps.load.parameters" 1 (by decide) (by decide) (by decide) (by decide)
    (fun j h1 h2 => absurd (by simpa using h2) (by omega))

/-- Loader for the include scenarios: `main` holds a top-level
`__INCLUDE__` directive pointing `sub` at `other`; `main2` holds the
directive one level deeper, under key `deep`. -/
def envC5 : Env :=
  ⟨fun f =>
    if f = "main" then
      .ok (.vMap [("__INCLUDE__", .vMap [("sub", .vStr "other")])])
    else if f = "other" then .ok (.vMap [("x", .vInt 1)])
    else if f = "main2" then
      .ok (.vMap [("deep", .vMap [("__INCLUDE__", .vMap [("q", .vStr "z")])])])
    else .error .typeError,
   fun _ _ => .error .typeError⟩

/-- The store `Construct({dict: {a: {}}})` — branch `a` exists but has
no `sub` node. -/
def storeC5a : Store :=
  (patchM noSources 2 Store.empty none none none (some [("a", Val.vMap [])]) none).1

/-- The store `Construct({dict: {a: {sub: {}}}})` — the include's
target node `a.sub` already exists. -/
def storeC5b : Store :=
  (patchM noSources 2 Store.empty none none none
    (some [("a", Val.vMap [("sub", Val.vMap [])])]) none).1

mutual

/-- Does any mapping anywhere in the tree still carry the reserved
`__INCLUDE__` key? -/
def anyIncludeKey : List (String × Val) → Bool
  | [] => false
  | (k, v) :: rest => k == "__INCLUDE__" || anyIncludeKeyV v || anyIncludeKey rest

def anyIncludeKeyV : Val → Bool
  | .vMap m => anyIncludeKey m
  | _ => false

end

/-- C5 (counterexample): include expansion does not work as claimed.
On `storeC5a` (no `a.sub` node) patching the file `main` at branch `a`
removes the directive but then fails with `Cannot locate branch`
instead of merging `other` at `a.sub` — the merged content never
appears.  And on `storeC5b` patching `main2` at `a` returns normally
while the `__INCLUDE__` key nested under `a.deep` survives in the
consolidated tree — the tree is not `__INCLUDE__`-free after
`patch()`. -/
theorem C5_counterexample :
    (patchM envC5 3 storeC5a (some (.vStr "main")) none none none (some "a")).2 =
        .error (.ycError "Cannot locate branch") ∧
    (patchM envC5 3 storeC5a (some (.vStr "main")) none none none
        (some "a")).1.maps = [("a", Val.vMap [])] ∧
    (patchM envC5 3 storeC5b (some (.vStr "main2")) none none none (some "a")).2 =
        .ok () ∧
    anyIncludeKey
      (patchM envC5 3 storeC5b (some (.vStr "main2")) none none none
        (some "a")).1.maps = true :=
  ⟨rfl, rfl, rfl, rfl⟩

/-- C5 (amended): when the source tree carries `__INCLUDE__` at the
top level of the patched branch node **and** the target node `a.sub`
already exists in the consolidated tree, `patch()` at `a` removes the
directive key, merges the content of the referenced source at `a.sub`,
and — the directive having been the only one — no `__INCLUDE__` key
remains anywhere; when `a.sub` does not exist, `patch()` fails with
the branch-not-found error after removing the directive, and
directives nested deeper than the branch node's top level are not
consumed. -/
theorem C5_include_expansion_with_existing_target :
    (patchM envC5 3 storeC5b (some (.vStr "main")) none none none (some "a")).2 =
        .ok () ∧
    (patchM envC5 3 storeC5b (some (.vStr "main")) none none none
        (some "a")).1.maps =
      [("a", Val.vMap [("sub", Val.vMap [("x", Val.vInt 1)])])] ∧
    anyIncludeKey
      (patchM envC5 3 storeC5b (some (.vStr "main")) none none none
        (some "a")).1.maps = false ∧
    (patchM envC5 3 storeC5b (some (.vStr "main")) none none none
        (some "a")).1.patch_list[2]? =
      some ⟨.file, some (.vStr "other"), none, none, "a.sub", false,
        [("x", Val.vInt 1)]⟩ :=
  ⟨rfl, rfl, rfl, rfl⟩

/-- Loader providing the file `orig.yaml`. -/
def envC6 : Env :=
  ⟨fun f => if f = "orig.yaml" then .ok (.vMap [("sec", .vMap [("a", .vInt 0)])])
            else .error .typeError,
   fun _ _ => .error .typeError⟩

/-- A filesystem on which every write succeeds. -/
def writesOk : WEnv := ⟨fun _ => none⟩

/-- A store whose single patch was loaded from `orig.yaml` and then
dirtied by a successful `set_value("sec", "a", 7)`. -/
def storeC6 : Store :=
  (set_valueM
    (patchM envC6 2 Store.empty (some (.vStr "orig.yaml")) none none none none).1
    "sec" "a" (Val.vInt 7)).1

/-- C6 (code bug): with `all_to_root` unset and no override,
`save()` does **not** write the dirty file patch back to its origin
file `orig.yaml` — the loop opens the `file_name` argument (`None`),
which raises `TypeError`, caught and recorded per patch; nothing at
all is written.  With an explicit `file_name`, the dirty patch is
written to that override even though `all_to_root` is false, and the
`all_to_root` flag never changes the outcome.  This contradicts the
method's own docstring ("Saves changed values to the files where they
came from", override "only applies to the root, unless all_to_root is
also set"). -/
theorem C6_save_ignores_origin_file :
    storeC6.patch_list[0]? = some ⟨.file, some (.vStr "orig.yaml"), none, none,
      "", true, [("sec", Val.vMap [("a", Val.vInt 7)])]⟩ ∧
    saveM writesOk storeC6 false none =
      ([⟨.file, "", some (.vStr "orig.yaml"), none, none, true, false,
        some openNoneMsg⟩], []) ∧
    saveM writesOk storeC6 false (some "override.yaml") =
      ([⟨.file, "", some (.vStr "orig.yaml"), none, none, true, true, none⟩],
       [("override.yaml", [("sec", Val.vMap [("a", Val.vInt 7)])])]) ∧
    (∀ (w : WEnv) (st : Store) (b1 b2 : Bool) (fn : Option String),
      saveM w st b1 fn = saveM w st b2 fn) :=
  ⟨rfl, rfl, rfl, fun _ _ _ _ _ => rfl⟩

theorem saveLoop_eq_map (wenv : WEnv) (fn : Option String) (l : List Patch) :
    saveM.saveLoop wenv fn l =
      (l.map (fun p => (savePatchStep wenv fn p).1),
       (l.map (fun p => (savePatchStep wenv fn p).2)).flatten) := by
  induction l with
  | nil => rfl
  | cons p rest ih => simp [saveM.saveLoop, ih]

/-- C8: `save()` is best effort.  It produces exactly one outcome
record per patch, each computed from that patch alone — so a write
failure on one patch (its error text captured in its own record)
cannot abort or influence the processing of the others — and
dict-kind and resource-kind patches are always reported unsaved,
whatever their dirty flag.  A failing write (no sink, or a sink the
filesystem rejects) yields `saved = false` with the exception text in
the record, never a raise: the model of the
`try/except Exception` loop body is total. -/
theorem C8_save_best_effort :
    (∀ (wenv : WEnv) (st : Store) (all_to_root : Bool) (fn : Option String),
      (saveM wenv st all_to_root fn).1 =
        st.patch_list.map (fun p => (savePatchStep wenv fn p).1)) ∧
    (∀ (wenv : WEnv) (fn : Option String) (p : Patch),
      p.kind = .dict ∨ p.kind = .res → (savePatchStep wenv fn p).1.saved = false) ∧
    (∀ (wenv : WEnv) (p : Patch), p.kind = .file → p.changed = true →
      (savePatchStep wenv none p).1.saved = false ∧
      (savePatchStep wenv none p).1.error = some openNoneMsg) ∧
    (∀ (wenv : WEnv) (f : String) (msg : String) (p : Patch), p.kind = .file →
      p.changed = true → wenv.writeErr f = some msg →
      (savePatchStep wenv (some f) p).1.saved = false ∧
      (savePatchStep wenv (some f) p).1.error = some msg) := by
  refine ⟨?_, ?_, ?_, ?_⟩
  · intro wenv st all fn
    show (saveM.saveLoop wenv fn st.patch_list).1 = _
    rw [saveLoop_eq_map]
  · intro wenv fn p hk
    rcases hk with hk | hk <;> simp [savePatchStep, hk]
  · intro wenv p hk hc
    simp [savePatchStep, hk, hc]
  · intro wenv f msg p hk hc hw
    simp [savePatchStep, hk, hc, hw]

/-- Witness for C8 at the dirty file-backed store: one record, write
failure captured as the record's error text. -/
theorem C8_save_best_effort_witness :
    (saveM writesOk storeC6 false none).1 =
      storeC6.patch_list.map (fun p => (savePatchStep writesOk none p).1) ∧
    (savePatchStep writesOk none
      ⟨.file, some (.vStr "orig.yaml"), none, none, "", true,
        [("sec", Val.vMap [("a", Val.vInt 7)])]⟩).1.saved = false ∧
    (savePatchStep writesOk none
      ⟨.file, some (.vStr "orig.yaml"), none, none, "", true,
        [("sec", Val.vMap [("a", Val.vInt 7)])]⟩).1.error = some openNoneMsg :=
  ⟨C8_save_best_effort.1 writesOk storeC6 false none,
   (C8_save_best_effort.2.2.1 writesOk _ rfl rfl).1,
   (C8_save_best_effort.2.2.1 writesOk _ rfl rfl).2⟩

/-! ## C2: traceability of consolidated leaves to patches -/

/-- Navigate a tree by a list of key segments. -/
def navV : Val → List String → Option Val
  | v, [] => some v
  | .vMap m, s :: rest =>
      match lookupA m s with
      | some v2 => navV v2 rest
      | none => none
  | _, _ :: _ => none

/-- The key segments of a recorded branch string: none for the root
branch, the dot-split otherwise. -/
def branchSegs (b : String) : List String :=
  if b = "" then [] else pySplit b

/-- The claim's traceability relation: the patch's branch is a
(segment-wise) prefix of the leaf's path, and the patch's stored
content, navigated by the path suffix beyond the branch, holds that
same value. -/
def tracesB (P : Patch) (segs : List String) (v : Val) : Bool :=
  (branchSegs P.branch).isPrefixOf segs &&
    (navV (Val.vMap P.content) (segs.drop (branchSegs P.branch).length) == some v)

mutual

/-- No mapping anywhere in the tree uses the empty string as a key. -/
def noEmptyKeys : List (String × Val) → Bool
  | [] => true
  | (k, v) :: rest => !(k == "") && noEmptyKeysV v && noEmptyKeys rest

def noEmptyKeysV : Val → Bool
  | .vMap m => noEmptyKeys m
  | _ => true

end

/-- Environments whose loadable trees are images of real Python
dictionaries (recursively distinct keys) with no empty-string keys. -/
def goodEnv (env : Env) : Prop :=
  (∀ f m, env.files f = .ok (Val.vMap m) → wfTree m = true ∧ noEmptyKeys m = true) ∧
  (∀ pkg r m, env.resources pkg r = .ok (Val.vMap m) →
    wfTree m = true ∧ noEmptyKeys m = true)

/-- The stores reachable from construction by `patch()` calls (with
dictionary-representable, empty-key-free sources) and by `set_value()`
calls that return normally. -/
inductive ReachOk (env : Env) : Store → Prop where
  | init : ReachOk env Store.empty
  | patchStep (st : Store) (fuel : Nat) (fn rs : Option Val) (pkg : Option String)
      (pd : Option (List (String × Val))) (br : Option String) :
      ReachOk env st →
      (∀ d, pd = some d → wfTree d = true ∧ noEmptyKeys d = true) →
      ReachOk env (patchM env fuel st fn rs pkg pd br).1
  | setOk (st st2 : Store) (path key : String) (value : Val) (r : Val × Bool) :
      ReachOk env st → set_valueM st path key value = (st2, .ok r) →
      ReachOk env st2

theorem lookupA_setKeyA_self (m : List (String × Val)) (k : String) (v : Val) :
    lookupA (setKeyA m k v) k = some v := by
  induction m with
  | nil => simp [setKeyA, lookupA]
  | cons hd tl ih =>
      obtain ⟨k2, w⟩ := hd
      by_cases hk : k2 = k
      · simp [setKeyA, lookupA, hk]
      · simp [setKeyA, lookupA, hk, ih]

theorem lookupA_setKeyA_ne (m : List (String × Val)) (k k2 : String) (v : Val)
    (h : k2 ≠ k) : lookupA (setKeyA m k v) k2 = lookupA m k2 := by
  induction m with
  | nil => simp [setKeyA, lookupA, Ne.symm h]
  | cons hd tl ih =>
      obtain ⟨k3, w⟩ := hd
      by_cases hk : k3 = k
      · subst hk
        simp [setKeyA, lookupA, Ne.symm h]
      · by_cases hk2 : k3 = k2
        · simp [setKeyA, lookupA, hk, hk2, h]
        · simp [setKeyA, lookupA, hk, hk2, ih]

theorem lookupA_delKeyA_ne (m : List (String × Val)) (k k2 : String)
    (h : k2 ≠ k) : lookupA (delKeyA m k) k2 = lookupA m k2 := by
  induction m with
  | nil => simp [delKeyA, lookupA]
  | cons hd tl ih =>
      obtain ⟨k3, w⟩ := hd
      by_cases hk : k3 = k
      · subst hk
        simp [delKeyA, lookupA, Ne.symm h]
      · by_cases hk2 : k3 = k2
        · simp [delKeyA, lookupA, hk, hk2, h]
        · simp [delKeyA, lookupA, hk, hk2, ih]

theorem lookupA_delKeyA_self (m : List (String × Val)) (k : String)
    (hw : wfTree m = true) : lookupA (delKeyA m k) k = none := by
  induction m with
  | nil => simp [delKeyA, lookupA]
  | cons hd tl ih =>
      obtain ⟨k2, w⟩ := hd
      simp only [wfTree, Bool.and_eq_true, Bool.not_eq_true'] at hw
      by_cases hk : k2 = k
      · subst hk
        simp only [delKeyA, if_pos rfl]
        simpa [Option.isSome_iff_exists] using hw.1.1
      · simp [delKeyA, lookupA, hk, ih hw.2]

theorem noEmptyKeys_lookup (m : List (String × Val))
    (h : noEmptyKeys m = true) : lookupA m "" = none := by
  induction m with
  | nil => rfl
  | cons hd tl ih =>
      obtain ⟨k, v⟩ := hd
      simp only [noEmptyKeys, Bool.and_eq_true, Bool.not_eq_true', beq_eq_false_iff_ne,
        ne_eq] at h
      simp [lookupA, h.1.1, ih h.2]

theorem noEmptyKeys_lookup_val (m : List (String × Val)) (k : String) (v : Val)
    (h : noEmptyKeys m = true) (hl : lookupA m k = some v) :
    k ≠ "" ∧ noEmptyKeysV v = true := by
  induction m with
  | nil => simp [lookupA] at hl
  | cons hd tl ih =>
      obtain ⟨k2, w⟩ := hd
      simp only [noEmptyKeys, Bool.and_eq_true, Bool.not_eq_true', beq_eq_false_iff_ne,
        ne_eq] at h
      by_cases hk : k2 = k
      · subst hk
        have hwv : w = v := by simpa [lookupA] using hl
        subst hwv
        exact ⟨h.1.1, h.1.2⟩
      · simp only [lookupA, if_neg hk] at hl
        exact ih h.2 hl

theorem wfTree_lookup_val (m : List (String × Val)) (k : String) (v : Val)
    (h : wfTree m = true) (hl : lookupA m k = some v) : wfVal v = true := by
  induction m with
  | nil => simp [lookupA] at hl
  | cons hd tl ih =>
      obtain ⟨k2, w⟩ := hd
      simp only [wfTree, Bool.and_eq_true, Bool.not_eq_true'] at h
      by_cases hk : k2 = k
      · subst hk
        have hwv : w = v := by simpa [lookupA] using hl
        subst hwv
        exact h.1.2
      · simp only [lookupA, if_neg hk] at hl
        exact ih h.2 hl

theorem wfTree_setKeyA (m : List (String × Val)) (k : String) (v : Val)
    (hw : wfTree m = true) (hv : wfVal v = true) :
    wfTree (setKeyA m k v) = true := by
  induction m with
  | nil => simp [setKeyA, wfTree, lookupA, hv]
  | cons hd tl ih =>
      obtain ⟨k2, w⟩ := hd
      simp only [wfTree, Bool.and_eq_true, Bool.not_eq_true'] at hw
      by_cases hk : k2 = k
      · subst hk
        simp [setKeyA, wfTree, hw.1.1, hw.2, hv]
      · have hne : lookupA (setKeyA tl k v) k2 = lookupA tl k2 :=
          lookupA_setKeyA_ne tl k k2 v hk
        simp [setKeyA, wfTree, hk, hne, hw.1.1, hw.1.2, ih hw.2]

theorem noEmptyKeys_setKeyA (m : List (String × Val)) (k : String) (v : Val)
    (hm : noEmptyKeys m = true) (hk : k ≠ "") (hv : noEmptyKeysV v = true) :
    noEmptyKeys (setKeyA m k v) = true := by
  induction m with
  | nil => simp [setKeyA, noEmptyKeys, hk, hv]
  | cons hd tl ih =>
      obtain ⟨k2, w⟩ := hd
      simp only [noEmptyKeys, Bool.and_eq_true, Bool.not_eq_true', beq_eq_false_iff_ne,
        ne_eq] at hm
      by_cases hkk : k2 = k
      · subst hkk
        simp [setKeyA, noEmptyKeys, hk, hv, hm.2]
      · simp [setKeyA, noEmptyKeys, hkk, hm.1.1, hm.1.2, ih hm.2]

theorem wfTree_delKeyA (m : List (String × Val)) (k : String)
    (hw : wfTree m = true) : wfTree (delKeyA m k) = true := by
  induction m with
  | nil => simp [delKeyA, wfTree]
  | cons hd tl ih =>
      obtain ⟨k2, w⟩ := hd
      simp only [wfTree, Bool.and_eq_true, Bool.not_eq_true'] at hw
      by_cases hk : k2 = k
      · subst hk
        simpa [delKeyA] using hw.2
      · have : lookupA (delKeyA tl k) k2 = lookupA tl k2 :=
          lookupA_delKeyA_ne tl k k2 hk
        simp [delKeyA, wfTree, hk, this, hw.1.1, hw.1.2, ih hw.2]

theorem noEmptyKeys_delKeyA (m : List (String × Val)) (k : String)
    (hm : noEmptyKeys m = true) : noEmptyKeys (delKeyA m k) = true := by
  induction m with
  | nil => simp [delKeyA, noEmptyKeys]
  | cons hd tl ih =>
      obtain ⟨k2, w⟩ := hd
      simp only [noEmptyKeys, Bool.and_eq_true, Bool.not_eq_true', beq_eq_false_iff_ne,
        ne_eq] at hm
      by_cases hk : k2 = k
      · subst hk
        simpa [delKeyA] using hm.2
      · simp [delKeyA, noEmptyKeys, hk, hm.1.1, hm.1.2, ih hm.2]

theorem navV_append (s1 s2 : List String) (v : Val) :
    navV v (s1 ++ s2) = (navV v s1).bind (fun u => navV u s2) := by
  induction s1 generalizing v with
  | nil => simp [navV]
  | cons s rest ih =>
      cases v with
      | vInt n => simp [navV]
      | vStr str => simp [navV]
      | vMap m =>
          cases hl : lookupA m s with
          | none => simp [navV, hl]
          | some x => simp [navV, hl, ih]

theorem navV_good (S : List String) (v w : Val) (hg : noEmptyKeysV v = true)
    (h : navV v S = some w) : noEmptyKeysV w = true := by
  induction S generalizing v with
  | nil => simp only [navV, Option.some.injEq] at h; rwa [← h]
  | cons s rest ih =>
      cases v with
      | vInt n => simp [navV] at h
      | vStr str => simp [navV] at h
      | vMap m =>
          cases hl : lookupA m s with
          | none => simp [navV, hl] at h
          | some x =>
              simp only [navV, hl] at h
              exact ih x (noEmptyKeys_lookup_val m s x (by simpa [noEmptyKeysV] using hg) hl).2 h

theorem navV_wf (S : List String) (v w : Val) (hg : wfVal v = true)
    (h : navV v S = some w) : wfVal w = true := by
  induction S generalizing v with
  | nil => simp only [navV, Option.some.injEq] at h; rwa [← h]
  | cons s rest ih =>
      cases v with
      | vInt n => simp [navV] at h
      | vStr str => simp [navV] at h
      | vMap m =>
          cases hl : lookupA m s with
          | none => simp [navV, hl] at h
          | some x =>
              simp only [navV, hl] at h
              exact ih x (wfTree_lookup_val m s x (by simpa [wfVal] using hg) hl) h

theorem updAt_id (S : List String) (v w : Val) (h : navV v S = some w) :
    updAt v S w = v := by
  induction S generalizing v with
  | nil =>
      simp only [navV, Option.some.injEq] at h
      simp [updAt, h]
  | cons s rest ih =>
      cases v with
      | vInt n => simp [navV] at h
      | vStr str => simp [navV] at h
      | vMap m =>
          cases hl : lookupA m s with
          | none => simp [navV, hl] at h
          | some x =>
              simp only [navV, hl] at h
              simp only [updAt, hl, ih x h]
              rw [setKeyA_self m s x hl]

theorem updAt_split (S : List String) (v u W : Val) (hS : navV v S = some u) :
    ∀ ℓ w, navV (updAt v S W) ℓ = some w → w.isMap = false →
      (∃ ℓ2, ℓ = S ++ ℓ2 ∧ navV W ℓ2 = some w) ∨
      (¬ (S <+: ℓ) ∧ navV v ℓ = some w) := by
  induction S generalizing v with
  | nil =>
      intro ℓ w hnav _
      exact Or.inl ⟨ℓ, rfl, by simpa [updAt] using hnav⟩
  | cons s S2 ih =>
      intro ℓ w hnav hscal
      cases v with
      | vInt n => simp [navV] at hS
      | vStr str => simp [navV] at hS
      | vMap m =>
          cases hl : lookupA m s with
          | none => simp [navV, hl] at hS
          | some x =>
              simp only [navV, hl] at hS
              simp only [updAt, hl] at hnav
              cases ℓ with
              | nil =>
                  simp only [navV, Option.some.injEq] at hnav
                  rw [← hnav] at hscal
                  simp [Val.isMap] at hscal
              | cons k2 ℓ2 =>
                  by_cases hk : k2 = s
                  · subst hk
                    simp only [navV, lookupA_setKeyA_self] at hnav
                    rcases ih x hS ℓ2 w hnav hscal with ⟨ℓ3, rfl, hW⟩ | ⟨hnp, hold⟩
                    · exact Or.inl ⟨ℓ3, rfl, hW⟩
                    · refine Or.inr ⟨?_, by simpa [navV, hl] using hold⟩
                      intro hp
                      exact hnp ((List.cons_prefix_cons.mp hp).2)
                  · simp only [navV, lookupA_setKeyA_ne m s k2 _ hk] at hnav
                    refine Or.inr ⟨?_, ?_⟩
                    · intro hp
                      exact hk (List.cons_prefix_cons.mp hp).1.symm
                    · cases hl2 : lookupA m k2 with
                      | none => rw [hl2] at hnav; simp at hnav
                      | some y => rw [hl2] at hnav; simpa [navV, hl2] using hnav

theorem updAt_preserves_off_key (S : List String) (key : String) (value : Val)
    (pm : List (String × Val)) :
    ∀ (v : Val) (ℓ : List String) (w : Val),
      navV v S = some (Val.vMap pm) → ¬ ((S ++ [key]) <+: ℓ) →
      navV v ℓ = some w → w.isMap = false →
      navV (updAt v S (Val.vMap (setKeyA pm key value))) ℓ = some w := by
  induction S with
  | nil =>
      intro v ℓ w hS hnp hnav hscal
      simp only [navV, Option.some.injEq] at hS
      subst hS
      cases ℓ with
      | nil =>
          simp only [navV, Option.some.injEq] at hnav
          rw [← hnav] at hscal
          simp [Val.isMap] at hscal
      | cons k2 ℓ2 =>
          have hk : k2 ≠ key := by
            intro he
            exact hnp (by simp [he])
          simp only [navV] at hnav
          simp only [updAt, navV, lookupA_setKeyA_ne pm key k2 value hk]
          exact hnav
  | cons s S2 ih =>
      intro v ℓ w hS hnp hnav hscal
      cases v with
      | vInt n => simp [navV] at hS
      | vStr str => simp [navV] at hS
      | vMap m =>
          cases hl : lookupA m s with
          | none => simp [navV, hl] at hS
          | some x =>
              simp only [navV, hl] at hS
              simp only [updAt, hl]
              cases ℓ with
              | nil =>
                  simp only [navV, Option.some.injEq] at hnav
                  rw [← hnav] at hscal
                  simp [Val.isMap] at hscal
              | cons k2 ℓ2 =>
                  by_cases hk : k2 = s
                  · subst hk
                    simp only [navV, lookupA_setKeyA_self]
                    simp only [navV, hl] at hnav
                    refine ih x ℓ2 w hS ?_ hnav hscal
                    intro hp
                    refine hnp ?_
                    have hcons : k2 :: (S2 ++ [key]) <+: k2 :: ℓ2 :=
                      List.cons_prefix_cons.mpr ⟨rfl, hp⟩
                    simpa using hcons
                  · simp only [navV, lookupA_setKeyA_ne m s k2 _ hk]
                    simpa [navV] using hnav

theorem updAt_hits_key (S : List String) (key : String) (value : Val)
    (pm : List (String × Val)) :
    ∀ (v : Val), navV v S = some (Val.vMap pm) →
      navV (updAt v S (Val.vMap (setKeyA pm key value))) (S ++ [key]) = some value := by
  induction S with
  | nil =>
      intro v hS
      simp only [navV, Option.some.injEq] at hS
      subst hS
      simp [updAt, navV, lookupA_setKeyA_self]
  | cons s S2 ih =>
      intro v hS
      cases v with
      | vInt n => simp [navV] at hS
      | vStr str => simp [navV] at hS
      | vMap m =>
          cases hl : lookupA m s with
          | none => simp [navV, hl] at hS
          | some x =>
              simp only [navV, hl] at hS
              simp only [updAt, hl, List.cons_append, navV, lookupA_setKeyA_self]
              exact ih x hS

theorem updAt_good (S : List String) (v u W : Val) (hS : navV v S = some u)
    (hv : noEmptyKeysV v = true) (hW : noEmptyKeysV W = true) :
    noEmptyKeysV (updAt v S W) = true := by
  induction S generalizing v with
  | nil => simpa [updAt] using hW
  | cons s S2 ih =>
      cases v with
      | vInt n => simp [navV] at hS
      | vStr str => simp [navV] at hS
      | vMap m =>
          cases hl : lookupA m s with
          | none => simp [navV, hl] at hS
          | some x =>
              simp only [navV, hl] at hS
              have hx := noEmptyKeys_lookup_val m s x (by simpa [noEmptyKeysV] using hv) hl
              simp only [updAt, hl, noEmptyKeysV]
              exact noEmptyKeys_setKeyA m s _ (by simpa [noEmptyKeysV] using hv)
                hx.1 (ih x hS hx.2)

theorem updAt_wf (S : List String) (v u W : Val) (hS : navV v S = some u)
    (hv : wfVal v = true) (hW : wfVal W = true) :
    wfVal (updAt v S W) = true := by
  induction S generalizing v with
  | nil => simpa [updAt] using hW
  | cons s S2 ih =>
      cases v with
      | vInt n => simp [navV] at hS
      | vStr str => simp [navV] at hS
      | vMap m =>
          cases hl : lookupA m s with
          | none => simp [navV, hl] at hS
          | some x =>
              simp only [navV, hl] at hS
              have hx := wfTree_lookup_val m s x (by simpa [wfVal] using hv) hl
              simp only [updAt, hl, wfVal]
              exact wfTree_setKeyA m s _ (by simpa [wfVal] using hv) (ih x hS hx)

theorem string_ext (a b : String) (h : a.data = b.data) : a = b := by
  cases a
  cases b
  simp only at h
  rw [h]

theorem strPrefix_iff (p s : String) : strPrefix p s = true ↔ p.data <+: s.data := by
  unfold strPrefix
  exact List.isPrefixOf_iff_prefix

theorem strPrefix_refl (b : String) : strPrefix b b = true :=
  (strPrefix_iff b b).mpr (List.prefix_refl _)

theorem strPrefix_empty_right (b : String) (h : strPrefix b "" = true) : b = "" := by
  have := (strPrefix_iff b "").mp h
  exact string_ext b "" (List.prefix_nil.mp this)

theorem strPrefix_append (b r : String) : strPrefix b (b ++ r) = true := by
  rw [strPrefix_iff, String.data_append]
  exact List.prefix_append _ _

theorem strPrefix_length_eq (b path : String) (h : strPrefix b path = true)
    (hl : path.length ≤ b.length) : b = path := by
  have hp := (strPrefix_iff b path).mp h
  exact string_ext b path (hp.eq_of_length (Nat.le_antisymm hp.length_le hl))

theorem strPrefix_length_le (b path : String) (h : strPrefix b path = true) :
    b.length ≤ path.length :=
  ((strPrefix_iff b path).mp h).length_le

theorem strDrop_append (b r : String) : strDrop (b ++ r) b.length = r := by
  unfold strDrop
  rw [String.data_append]
  rw [show b.length = b.data.length from rfl, List.drop_left]

theorem pySplit_go_dot (r acc : List Char) :
    pySplit.go ('.' :: r) acc = String.mk acc.reverse :: pySplit.go r [] := by
  simp [pySplit.go]

theorem pySplit_dot_cons (r : String) : pySplit ("." ++ r) = "" :: pySplit r := by
  unfold pySplit
  rw [show ("." ++ r).data = '.' :: r.data from rfl]
  rw [pySplit_go_dot]
  rfl

theorem string_append_assoc (a b c : String) : a ++ b ++ c = a ++ (b ++ c) := by
  refine string_ext _ _ ?_
  simp [String.data_append, List.append_assoc]

theorem string_length_append (a b : String) : (a ++ b).length = a.length + b.length := by
  show (a ++ b).data.length = a.data.length + b.data.length
  rw [String.data_append, List.length_append]

theorem joinPath_ne_empty (b k : String) (hk : k ≠ "") : joinPath b k ≠ "" := by
  unfold joinPath
  by_cases hb : b = ""
  · simpa [hb] using hk
  · simp only [hb, if_false]
    intro h
    have := congrArg String.length h
    rw [string_length_append, string_length_append] at this
    rw [show (".": String).length = 1 from rfl,
      show ("" : String).length = 0 from rfl] at this
    omega

theorem foldl_joinPath_form (ks : List String) (b : String) (hb : b ≠ "") :
    ks.foldl joinPath b = b ∨ ∃ r, ks.foldl joinPath b = b ++ "." ++ r := by
  induction ks generalizing b with
  | nil => exact Or.inl rfl
  | cons k ks2 ih =>
      have hj : joinPath b k = b ++ "." ++ k := by simp [joinPath, hb]
      have hne : joinPath b k ≠ "" := by
        rw [hj]
        intro h0
        have hlen := congrArg String.length h0
        rw [string_length_append, string_length_append,
          show (".": String).length = 1 from rfl,
          show ("" : String).length = 0 from rfl] at hlen
        omega
      rcases ih (joinPath b k) hne with h | ⟨r, h⟩
      · exact Or.inr ⟨k, by rw [List.foldl_cons, h, hj]⟩
      · refine Or.inr ⟨k ++ "." ++ r, ?_⟩
        rw [List.foldl_cons, h, hj]
        refine string_ext _ _ ?_
        simp [String.data_append, List.append_assoc]

theorem strPrefix_foldl_joinPath (ks : List String) (b : String) :
    strPrefix b (ks.foldl joinPath b) = true := by
  induction ks generalizing b with
  | nil => exact strPrefix_refl b
  | cons k ks2 ih =>
      rw [List.foldl_cons]
      have h2 := ih (joinPath b k)
      have hpre : strPrefix b (joinPath b k) = true := by
        by_cases hb : b = ""
        · subst hb
          rw [strPrefix_iff]
          exact List.nil_prefix
        · simp only [joinPath, hb, if_false]
          rw [string_append_assoc]
          exact strPrefix_append b ("." ++ k)
      rw [strPrefix_iff] at h2 hpre ⊢
      exact hpre.trans h2

theorem foldl_joinPath_empty (ks : List String) (b : String)
    (hks : ∀ k ∈ ks, k ≠ "") (h : ks.foldl joinPath b = "") : b = "" ∧ ks = [] := by
  cases ks with
  | nil => exact ⟨h, rfl⟩
  | cons k ks2 =>
      exfalso
      rw [List.foldl_cons] at h
      have hne : joinPath b k ≠ "" := joinPath_ne_empty b k (hks k (by simp))
      have := strPrefix_foldl_joinPath ks2 (joinPath b k)
      rw [h] at this
      exact hne (strPrefix_empty_right _ this)

theorem walkBranch_ok_nav (segs : List String) (v tv : Val)
    (h : walkBranch v segs = .ok tv) : navV v segs = some tv := by
  induction segs generalizing v with
  | nil => simpa [walkBranch, navV] using h
  | cons s rest ih =>
      cases v with
      | vInt n => simp [walkBranch, pyContains] at h
      | vStr str =>
          simp only [walkBranch, pyContains] at h
          split at h <;> simp [pyIndex] at h
      | vMap m =>
          cases hl : lookupA m s with
          | none => simp [walkBranch, pyContains, hl] at h
          | some x =>
              simp only [walkBranch, pyContains, hl, Option.isSome_some, pyIndex] at h
              simpa [navV, hl] using ih x h

theorem gsWalk_ok_nav (segs : List String) (v w : Val)
    (h : gsWalk v segs = .ok (some w)) : navV v segs = some w := by
  induction segs generalizing v with
  | nil => simpa [gsWalk, navV] using h
  | cons s rest ih =>
      cases v with
      | vInt n => simp [gsWalk, pyContains] at h
      | vStr str =>
          simp only [gsWalk, pyContains] at h
          split at h <;> simp [pyIndex] at h
      | vMap m =>
          cases hl : lookupA m s with
          | none => simp [gsWalk, pyContains, hl] at h
          | some x =>
              simp only [gsWalk, pyContains, hl, Option.isSome_some, pyIndex] at h
              simpa [navV, hl] using ih x h

theorem svTrace_ok_nav (segs : List String) (v w : Val)
    (h : svTrace v segs = .ok w) : navV v segs = some w := by
  induction segs generalizing v with
  | nil => simpa [svTrace, navV] using h
  | cons s rest ih =>
      cases v with
      | vInt n => simp [svTrace, pyContains] at h
      | vStr str =>
          simp only [svTrace, pyContains] at h
          split at h <;> simp [pyIndex] at h
      | vMap m =>
          cases hl : lookupA m s with
          | none => simp [svTrace, pyContains, hl] at h
          | some x =>
              simp only [svTrace, pyContains, hl, Option.isSome_some, pyIndex] at h
              simpa [navV, hl] using ih x h

theorem insortLoc_mem (l : List (String × Nat)) (p e : String × Nat)
    (h : e ∈ insortLoc l p) : e ∈ l ∨ e = p := by
  induction l with
  | nil => simpa [insortLoc] using h
  | cons q rest ih =>
      simp only [insortLoc] at h
      split at h
      · rcases List.mem_cons.mp h with h2 | h2
        · exact Or.inr h2
        · exact Or.inl h2
      · rcases List.mem_cons.mp h with h2 | h2
        · exact Or.inl (by simp [h2])
        · rcases ih h2 with h3 | h3
          · exact Or.inl (List.mem_cons_of_mem _ h3)
          · exact Or.inr h3

theorem insortLoc_length (l : List (String × Nat)) (p : String × Nat) :
    (insortLoc l p).length = l.length + 1 := by
  induction l with
  | nil => rfl
  | cons q rest ih =>
      simp only [insortLoc]
      split
      · simp
      · simp [ih]

theorem strLt_empty_false (q : String) : strLt q "" = false := by
  unfold strLt
  cases q.data with
  | nil => rfl
  | cons c cs => rfl

theorem insortLoc_head_empty (l : List (String × Nat)) (p : String × Nat)
    (hl : ∀ e rest2, l = e :: rest2 → e.1 = "") :
    ∀ e rest2, insortLoc l p = e :: rest2 →
      (l = [] → e = p) ∧ (l ≠ [] → e.1 = "" ∨ e = p) := by
  cases l with
  | nil =>
      intro e rest2 h
      refine ⟨fun _ => ?_, fun hne => absurd rfl hne⟩
      exact (by simpa [insortLoc] using (congrArg (fun x => x.head?) h) : p = e).symm
  | cons q rest =>
      intro e rest2 h
      refine ⟨fun hc => by simp at hc, fun _ => ?_⟩
      simp only [insortLoc] at h
      split at h
      · exact Or.inr (by
          have := congrArg (fun x => List.head? x) h
          simpa using this.symm)
      · have hq : q.1 = "" := hl q rest rfl
        have hqe : q = e := by
          have := congrArg (fun x => List.head? x) h
          simpa using this
        exact Or.inl (by rw [← hqe]; exact hq)

theorem dmStep_else (T : List (String × Val)) (k : String) (sv : Val)
    (cs : List String) (p : String)
    (hne : ∀ tm sm, lookupA T k = some (Val.vMap tm) → sv = Val.vMap sm → False) :
    dmStep T k sv cs p = (setKeyA T k sv, cs ++ [p]) := by
  cases sv with
  | vMap sm =>
      cases hl : lookupA T k with
      | none => rw [dmStep_lookup_none T k _ cs p hl]
      | some w =>
          cases w with
          | vMap tm => exact absurd rfl (hne tm sm hl)
          | vInt n => rw [dmStep_lookup_int T k n _ cs p hl]
          | vStr s => rw [dmStep_lookup_str T k s _ cs p hl]
  | vInt n => rw [dmStep_sv_int]
  | vStr s => rw [dmStep_sv_str]

theorem lookupA_isSome_of_mem (m : List (String × Val)) (kv : String × Val)
    (h : kv ∈ m) : (lookupA m kv.1).isSome = true := by
  induction m with
  | nil => simp at h
  | cons hd tl ih =>
      obtain ⟨k2, w⟩ := hd
      rcases List.mem_cons.mp h with h2 | h2
      · subst h2
        simp [lookupA]
      · by_cases hk : k2 = kv.1
        · simp [lookupA, hk]
        · simp [lookupA, hk, ih h2]

theorem dict_merge_leaf_origin (T S : List (String × Val)) (cs : List String)
    (p : String) :
    wfTree S = true → ∀ ℓ v, navV (Val.vMap (dict_merge T S cs p).1) ℓ = some v →
      v.isMap = false →
      navV (Val.vMap T) ℓ = some v ∨ navV (Val.vMap S) ℓ = some v := by
  refine dict_merge.induct
    (fun T S cs p => wfTree S = true → ∀ ℓ v,
      navV (Val.vMap (dict_merge T S cs p).1) ℓ = some v → v.isMap = false →
      navV (Val.vMap T) ℓ = some v ∨ navV (Val.vMap S) ℓ = some v)
    (fun T k sv cs p => wfVal sv = true → ∀ ℓ v,
      navV (Val.vMap (dmStep T k sv cs p).1) ℓ = some v → v.isMap = false →
      navV (Val.vMap T) ℓ = some v ∨ navV (Val.vMap [(k, sv)]) ℓ = some v)
    ?_ ?_ ?_ ?_ T S cs p
  · intro target key changes path tm sm hl t2 ch2 hrec ih hwf ℓ v hnav hscal
    rw [dmStep_both target key tm sm changes path hl, hrec] at hnav
    cases ℓ with
    | nil =>
        simp only [navV, Option.some.injEq] at hnav
        rw [← hnav] at hscal
        simp [Val.isMap] at hscal
    | cons k2 ℓ2 =>
        by_cases hk : k2 = key
        · subst hk
          simp only [navV, lookupA_setKeyA_self] at hnav
          rcases ih (by simpa [wfVal] using hwf) ℓ2 v (by rw [hrec]; exact hnav) hscal
            with h | h
          · exact Or.inl (by simpa [navV, hl] using h)
          · exact Or.inr (by simpa [navV, lookupA] using h)
        · simp only [navV, lookupA_setKeyA_ne target key k2 _ hk] at hnav
          refine Or.inl ?_
          cases hl2 : lookupA target k2 with
          | none => rw [hl2] at hnav; simp at hnav
          | some y => rw [hl2] at hnav; simpa [navV, hl2] using hnav
  · intro t target key changes path hne hwf ℓ v hnav hscal
    rw [dmStep_else target key t changes path hne] at hnav
    cases ℓ with
    | nil =>
        simp only [navV, Option.some.injEq] at hnav
        rw [← hnav] at hscal
        simp [Val.isMap] at hscal
    | cons k2 ℓ2 =>
        by_cases hk : k2 = key
        · subst hk
          simp only [navV, lookupA_setKeyA_self] at hnav
          exact Or.inr (by simpa [navV, lookupA] using hnav)
        · simp only [navV, lookupA_setKeyA_ne target key k2 _ hk] at hnav
          refine Or.inl ?_
          cases hl2 : lookupA target k2 with
          | none => rw [hl2] at hnav; simp at hnav
          | some y => rw [hl2] at hnav; simpa [navV, hl2] using hnav
  · intro target changes path _ ℓ v hnav _
    rw [dict_merge_nil] at hnav
    exact Or.inl hnav
  · intro target changes path key sv rest t2 ch2 hstep ih2 ih1 hwf ℓ v hnav hscal
    simp only [wfTree, Bool.and_eq_true, Bool.not_eq_true'] at hwf
    rw [dict_merge_cons, hstep] at hnav
    rcases ih1 hwf.2 ℓ v hnav hscal with h | h
    · rcases ih2 hwf.1.2 ℓ v (by rw [hstep]; exact h) hscal with h2 | h2
      · exact Or.inl h2
      · cases ℓ with
        | nil =>
            simp only [navV, Option.some.injEq] at h2
            rw [← h2] at hscal
            simp [Val.isMap] at hscal
        | cons k2 ℓ2 =>
            simp only [navV, lookupA] at h2
            by_cases hk : key = k2
            · subst hk
              simp only [if_pos rfl] at h2
              exact Or.inr (by simpa [navV, lookupA] using h2)
            · simp only [if_neg hk, lookupA] at h2
              simp at h2
    · cases ℓ with
      | nil =>
          simp only [navV, Option.some.injEq] at h
          rw [← h] at hscal
          simp [Val.isMap] at hscal
      | cons k2 ℓ2 =>
          simp only [navV] at h
          cases hl2 : lookupA rest k2 with
          | none => rw [hl2] at h; simp at h
          | some y =>
              rw [hl2] at h
              have hk : key ≠ k2 := by
                intro he
                rw [he] at hwf
                rw [hl2] at hwf
                simp at hwf
              exact Or.inr (by simpa [navV, lookupA, hk, hl2] using h)

theorem dict_merge_preserves_good (T S : List (String × Val)) (cs : List String)
    (p : String) :
    wfTree T = true → noEmptyKeys T = true → wfTree S = true → noEmptyKeys S = true →
    wfTree (dict_merge T S cs p).1 = true ∧ noEmptyKeys (dict_merge T S cs p).1 = true := by
  refine dict_merge.induct
    (fun T S cs p => wfTree T = true → noEmptyKeys T = true → wfTree S = true →
      noEmptyKeys S = true →
      wfTree (dict_merge T S cs p).1 = true ∧ noEmptyKeys (dict_merge T S cs p).1 = true)
    (fun T k sv cs p => wfTree T = true → noEmptyKeys T = true → k ≠ "" →
      wfVal sv = true → noEmptyKeysV sv = true →
      wfTree (dmStep T k sv cs p).1 = true ∧ noEmptyKeys (dmStep T k sv cs p).1 = true)
    ?_ ?_ ?_ ?_ T S cs p
  · intro target key changes path tm sm hl t2 ch2 hrec ih hwt hgt hk hwsv hgsv
    rw [dmStep_both target key tm sm changes path hl, hrec]
    have htm : wfVal (Val.vMap tm) = true := wfTree_lookup_val target key _ hwt hl
    have hgtm := (noEmptyKeys_lookup_val target key _ hgt hl).2
    have hin := ih (by simpa [wfVal] using htm) (by simpa [noEmptyKeysV] using hgtm)
      (by simpa [wfVal] using hwsv) (by simpa [noEmptyKeysV] using hgsv)
    rw [hrec] at hin
    constructor
    · exact wfTree_setKeyA target key _ hwt (by simpa [wfVal] using hin.1)
    · exact noEmptyKeys_setKeyA target key _ hgt hk (by simpa [noEmptyKeysV] using hin.2)
  · intro t target key changes path hne hwt hgt hk hwsv hgsv
    rw [dmStep_else target key t changes path hne]
    exact ⟨wfTree_setKeyA target key t hwt hwsv,
      noEmptyKeys_setKeyA target key t hgt hk hgsv⟩
  · intro target changes path hwt hgt _ _
    rw [dict_merge_nil]
    exact ⟨hwt, hgt⟩
  · intro target changes path key sv rest t2 ch2 hstep ih2 ih1 hwt hgt hws hgs
    simp only [wfTree, Bool.and_eq_true, Bool.not_eq_true'] at hws
    simp only [noEmptyKeys, Bool.and_eq_true, Bool.not_eq_true', beq_eq_false_iff_ne,
      ne_eq] at hgs
    have hstep2 := ih2 hwt hgt hgs.1.1 hws.1.2 hgs.1.2
    rw [hstep] at hstep2
    rw [dict_merge_cons, hstep]
    exact ih1 hstep2.1 hstep2.2 hws.2 hgs.2

theorem dict_merge_disjoint_changes (S : List (String × Val)) :
    ∀ (T : List (String × Val)) (cs : List String) (p : String),
    (∀ kv ∈ S, lookupA T kv.1 = none) → wfTree S = true →
    ∀ c ∈ (dict_merge T S cs p).2, c ∈ cs ∨ c = p := by
  induction S with
  | nil =>
      intro T cs p _ _ c hc
      rw [dict_merge_nil] at hc
      exact Or.inl hc
  | cons hd rest ih =>
      obtain ⟨k, sv⟩ := hd
      intro T cs p hd2 hw c hc
      simp only [wfTree, Bool.and_eq_true, Bool.not_eq_true'] at hw
      have hlk : lookupA T k = none := hd2 (k, sv) (by simp)
      have hstep : dmStep T k sv cs p = (setKeyA T k sv, cs ++ [p]) :=
        dmStep_lookup_none T k sv cs p hlk
      rw [dict_merge_cons, hstep] at hc
      have hd3 : ∀ kv ∈ rest, lookupA (setKeyA T k sv) kv.1 = none := by
        intro kv hkv
        have hne : kv.1 ≠ k := by
          intro he
          have := lookupA_isSome_of_mem rest kv hkv
          rw [he] at this
          rw [hw.1.1] at this
          simp at this
        rw [lookupA_setKeyA_ne T k kv.1 sv hne]
        exact hd2 kv (List.mem_cons_of_mem _ hkv)
      rcases ih (setKeyA T k sv) (cs ++ [p]) p hd3 hw.2 c hc with h | h
      · rcases List.mem_append.mp h with h2 | h2
        · exact Or.inl h2
        · exact Or.inr (List.mem_singleton.mp h2)
      · exact Or.inr h

theorem dict_merge_changes_extend (T S : List (String × Val)) (cs : List String)
    (p : String) : ∃ extra, (dict_merge T S cs p).2 = cs ++ extra := by
  refine dict_merge.induct
    (fun T S cs p => ∃ extra, (dict_merge T S cs p).2 = cs ++ extra)
    (fun T k sv cs p => ∃ extra, (dmStep T k sv cs p).2 = cs ++ extra)
    ?_ ?_ ?_ ?_ T S cs p
  · intro target key changes path tm sm hl t2 ch2 hrec ih
    rw [dmStep_both target key tm sm changes path hl]
    exact ih
  · intro t target key changes path hne
    rw [dmStep_else target key t changes path hne]
    exact ⟨[path], rfl⟩
  · intro target changes path
    rw [dict_merge_nil]
    exact ⟨[], by simp⟩
  · intro target changes path key sv rest t2 ch2 hstep ih2 ih1
    rw [dict_merge_cons, hstep]
    rw [hstep] at ih2
    obtain ⟨e1, he1⟩ := ih2
    simp only at he1
    obtain ⟨e2, he2⟩ := ih1
    exact ⟨e1 ++ e2, by rw [he2, he1]; simp⟩

theorem dict_merge_no_changes (T S : List (String × Val)) (cs : List String)
    (p : String) :
    (dict_merge T S cs p).2 = cs → (dict_merge T S cs p).1 = T := by
  refine dict_merge.induct
    (fun T S cs p => (dict_merge T S cs p).2 = cs → (dict_merge T S cs p).1 = T)
    (fun T k sv cs p => (dmStep T k sv cs p).2 = cs → (dmStep T k sv cs p).1 = T)
    ?_ ?_ ?_ ?_ T S cs p
  · intro target key changes path tm sm hl t2 ch2 hrec ih hch
    rw [dmStep_both target key tm sm changes path hl] at hch ⊢
    have := ih (by rw [hrec] at hch ⊢; exact hch)
    rw [hrec] at this ⊢
    simp only at this ⊢
    rw [this]
    exact setKeyA_self target key (Val.vMap tm) hl
  · intro t target key changes path hne hch
    rw [dmStep_else target key t changes path hne] at hch
    simp only at hch
    exfalso
    have := congrArg List.length hch
    simp at this
  · intro target changes path _
    rw [dict_merge_nil]
  · intro target changes path key sv rest t2 ch2 hstep ih2 ih1 hch
    rw [dict_merge_cons, hstep] at hch ⊢
    obtain ⟨e1, he1⟩ : ∃ e1, ch2 = changes ++ e1 := by
      have hext := dict_merge_changes_extend target [(key, sv)] changes path
      rw [dict_merge_cons, dict_merge_nil] at hext
      obtain ⟨e, he⟩ := hext
      rw [hstep] at he
      simp only at he
      exact ⟨e, he⟩
    obtain ⟨e2, he2⟩ := dict_merge_changes_extend t2 rest ch2 path
    rw [he2, he1] at hch
    have he1nil : e1 = [] ∧ e2 = [] := by
      have hlen := congrArg List.length hch
      rw [List.length_append, List.length_append] at hlen
      have h0 : e1.length = 0 ∧ e2.length = 0 := by omega
      exact ⟨List.length_eq_zero.mp h0.1, List.length_eq_zero.mp h0.2⟩
    have hch2 : ch2 = changes := by rw [he1, he1nil.1]; simp
    have ht2 : t2 = target := by
      have := ih2 (by rw [hstep, hch2])
      rw [hstep] at this
      exact this
    have := ih1 (by rw [he2, he1nil.2, hch2]; simp)
    rw [this, ht2]

theorem pySplit_go_ne_nil (cs acc : List Char) : pySplit.go cs acc ≠ [] := by
  induction cs generalizing acc with
  | nil => simp [pySplit.go]
  | cons c rest ih =>
      simp only [pySplit.go]
      split
      · simp
      · exact ih _

theorem pySplit_ne_nil (b : String) : pySplit b ≠ [] := pySplit_go_ne_nil _ _

theorem mem_set_or_get (l : List Patch) (i : Nat) (x : Patch) (a : Patch)
    (h : a ∈ l) : a ∈ l.set i x ∨ l[i]? = some a := by
  induction l generalizing i with
  | nil => simp at h
  | cons hd tl ih =>
      cases i with
      | zero =>
          rcases List.mem_cons.mp h with h2 | h2
          · exact Or.inr (by simp [h2])
          · exact Or.inl (by simp [List.set]; exact Or.inr h2)
      | succ i2 =>
          rcases List.mem_cons.mp h with h2 | h2
          · exact Or.inl (by simp [List.set, h2])
          · rcases ih i2 h2 with h3 | h3
            · exact Or.inl (by simp [List.set]; exact Or.inr h3)
            · exact Or.inr (by simpa using h3)

theorem updAt_vMap (m : List (String × Val)) (segs : List String)
    (X : List (String × Val)) :
    Val.vMap (asMap (updAt (Val.vMap m) segs (Val.vMap X))) =
      updAt (Val.vMap m) segs (Val.vMap X) := by
  cases segs with
  | nil => rfl
  | cons s rest =>
      simp only [updAt]
      cases lookupA m s <;> rfl

/-- The strengthened induction invariant for C2: leaf traceability
plus the structural facts about the patch index that the `set_value`
resolution analysis needs. -/
structure SInv (st : Store) : Prop where
  inv : ∀ segs v, navV (Val.vMap st.maps) segs = some v → v.isMap = false →
        ∃ P ∈ st.patch_list, tracesB P segs v = true
  locs : ∀ e ∈ st.patch_locations, e.2 < st.patch_list.length ∧
         ∀ P, st.patch_list[e.2]? = some P →
           strPrefix P.branch e.1 = true ∧
           (P.branch ≠ "" → e.1 = P.branch ∨ ∃ r, e.1 = P.branch ++ "." ++ r)
  head : ∀ e rest, st.patch_locations = e :: rest → e.1 = ""
  emptyLocs : st.patch_locations = [] → st.maps = []
  mapsWf : wfTree st.maps = true
  mapsGood : noEmptyKeys st.maps = true
  contentGood : ∀ P ∈ st.patch_list, noEmptyKeys P.content = true

theorem SInv_empty : SInv Store.empty := by
  refine ⟨?_, ?_, ?_, ?_, rfl, rfl, ?_⟩
  · intro segs v hnav hscal
    cases segs with
    | nil =>
        simp only [navV, Option.some.injEq] at hnav
        rw [← hnav] at hscal
        simp [Val.isMap] at hscal
    | cons s rest => simp [navV, lookupA, Store.empty] at hnav
  · intro e he
    simp [Store.empty] at he
  · intro e rest h
    simp [Store.empty] at h
  · intro _
    rfl
  · intro P hP
    simp [Store.empty] at hP

theorem SInv_register (st : Store) (rec : Patch) (hs : SInv st)
    (hg : noEmptyKeys rec.content = true) :
    SInv { st with patch_list := st.patch_list ++ [rec] } := by
  refine ⟨?_, ?_, hs.head, hs.emptyLocs, hs.mapsWf, hs.mapsGood, ?_⟩
  · intro segs v hnav hscal
    obtain ⟨P, hP, ht⟩ := hs.inv segs v hnav hscal
    exact ⟨P, List.mem_append_left _ hP, ht⟩
  · intro e he
    obtain ⟨hlt, hP⟩ := hs.locs e he
    refine ⟨by simpa using Nat.lt_succ_of_lt hlt, ?_⟩
    intro P hPe
    rw [List.getElem?_append_left hlt] at hPe
    exact hP P hPe
  · intro P hP
    rcases List.mem_append.mp hP with h | h
    · exact hs.contentGood P h
    · rw [List.mem_singleton.mp h]
      exact hg

theorem foldl_insort_mem (cs : List String) (idx : Nat) :
    ∀ (l : List (String × Nat)) (e : String × Nat),
      e ∈ cs.foldl (fun acc c => insortLoc acc (c, idx)) l →
      e ∈ l ∨ ∃ c ∈ cs, e = (c, idx) := by
  induction cs with
  | nil =>
      intro l e he
      exact Or.inl he
  | cons c cs2 ih =>
      intro l e he
      rcases ih _ e he with h | ⟨c2, hc2, he2⟩
      · rcases insortLoc_mem l (c, idx) e h with h2 | h2
        · exact Or.inl h2
        · exact Or.inr ⟨c, by simp, h2⟩
      · exact Or.inr ⟨c2, List.mem_cons_of_mem _ hc2, he2⟩

theorem foldl_insort_length (cs : List String) (idx : Nat) :
    ∀ (l : List (String × Nat)),
      (cs.foldl (fun acc c => insortLoc acc (c, idx)) l).length =
        l.length + cs.length := by
  induction cs with
  | nil => intro l; simp
  | cons c cs2 ih =>
      intro l
      rw [List.foldl_cons, ih, insortLoc_length]
      simp [Nat.add_assoc, Nat.add_comm 1 cs2.length]

theorem insortLoc_head_cases (q : String × Nat) (t : List (String × Nat))
    (p : String × Nat) :
    ∀ e r, insortLoc (q :: t) p = e :: r →
      e = q ∨ (e = p ∧ (strLt p.1 q.1 = true ∨ p.1 = q.1)) := by
  intro e r h
  simp only [insortLoc] at h
  split at h
  · rename_i hc
    refine Or.inr ⟨?_, ?_⟩
    · have := congrArg (fun x => List.head? x) h
      exact (by simpa using this : p = e).symm
    · rcases hc with h2 | h2
      · exact Or.inl h2
      · exact Or.inr h2.1
  · refine Or.inl ?_
    have := congrArg (fun x => List.head? x) h
    exact (by simpa using this : q = e).symm

theorem foldl_insort_head (cs : List String) (idx : Nat) :
    ∀ (l : List (String × Nat)),
      (∀ e r, l = e :: r → e.1 = "") → (l = [] → ∀ c ∈ cs, c = "") →
      ∀ e r, cs.foldl (fun acc c => insortLoc acc (c, idx)) l = e :: r → e.1 = "" := by
  induction cs with
  | nil =>
      intro l hl _ e r h
      exact hl e r h
  | cons c cs2 ih =>
      intro l hl hnil e r h
      rw [List.foldl_cons] at h
      refine ih (insortLoc l (c, idx)) ?_ ?_ e r h
      · intro e2 r2 h2
        cases l with
        | nil =>
            have hc : c = "" := hnil rfl c (by simp)
            have : insortLoc [] (c, idx) = [(c, idx)] := rfl
            rw [this] at h2
            have he2 : e2 = (c, idx) := by
              have := congrArg (fun x => List.head? x) h2
              exact (by simpa using this : (c, idx) = e2).symm
            rw [he2, hc]
        | cons q t =>
            rcases insortLoc_head_cases q t (c, idx) e2 r2 h2 with h3 | h3
            · rw [h3]
              exact hl q t rfl
            · have hq : q.1 = "" := hl q t rfl
              rcases h3.2 with h4 | h4
              · rw [hq] at h4
                rw [strLt_empty_false] at h4
                simp at h4
              · rw [h3.1]
                rw [hq] at h4
                exact h4
      · intro hins
        exfalso
        have := congrArg List.length hins
        rw [insortLoc_length] at this
        simp at this

theorem SInv_merge (st : Store) (segs : List String) (tm S : List (String × Val))
    (b : String) (pl : Nat) (rec : Patch) (hs : SInv st)
    (hnav : navV (Val.vMap st.maps) segs = some (Val.vMap tm))
    (hbs : branchSegs b = segs)
    (hpl : st.patch_list[pl]? = some rec)
    (hrb : rec.branch = b) (hrc : rec.content = S)
    (hSw : wfTree S = true) (hSg : noEmptyKeys S = true) :
    SInv { st with
      maps := asMap (updAt (Val.vMap st.maps) segs
        (Val.vMap (dict_merge tm S [] b).1)),
      patch_locations := (dict_merge tm S [] b).2.foldl
        (fun l c => insortLoc l (c, pl)) st.patch_locations } := by
  have hwtm : wfTree tm = true := by
    have := navV_wf segs (Val.vMap st.maps) (Val.vMap tm)
      (by simpa [wfVal] using hs.mapsWf) hnav
    simpa [wfVal] using this
  have hgtm : noEmptyKeys tm = true := by
    have := navV_good segs (Val.vMap st.maps) (Val.vMap tm)
      (by simpa [noEmptyKeysV] using hs.mapsGood) hnav
    simpa [noEmptyKeysV] using this
  have hmerged := dict_merge_preserves_good tm S [] b hwtm hgtm hSw hSg
  refine ⟨?_, ?_, ?_, ?_, ?_, ?_, ?_⟩
  · intro ℓ v hnav2 hscal
    rw [show Val.vMap (asMap (updAt (Val.vMap st.maps) segs
      (Val.vMap (dict_merge tm S [] b).1))) = updAt (Val.vMap st.maps) segs
      (Val.vMap (dict_merge tm S [] b).1) from updAt_vMap _ _ _] at hnav2
    rcases updAt_split segs (Val.vMap st.maps) (Val.vMap tm) _ hnav ℓ v hnav2 hscal with
      ⟨ℓ2, rfl, hW⟩ | ⟨_, hold⟩
    · rcases dict_merge_leaf_origin tm S [] b hSw ℓ2 v hW hscal with h | h
      · have : navV (Val.vMap st.maps) (segs ++ ℓ2) = some v := by
          rw [navV_append, hnav]
          simpa using h
        obtain ⟨P, hP, ht⟩ := hs.inv _ v this hscal
        exact ⟨P, hP, ht⟩
      · refine ⟨rec, List.getElem?_mem hpl, ?_⟩
        unfold tracesB
        rw [hrb, hbs, hrc]
        rw [List.drop_left]
        simp only [Bool.and_eq_true]
        exact ⟨List.isPrefixOf_iff_prefix.mpr (List.prefix_append _ _),
          beq_iff_eq.mpr h⟩
    · obtain ⟨P, hP, ht⟩ := hs.inv ℓ v hold hscal
      exact ⟨P, hP, ht⟩
  · intro e he
    rcases foldl_insort_mem _ pl _ e he with h | ⟨c, hc, rfl⟩
    · exact hs.locs e h
    · have hpllt : pl < st.patch_list.length := by
        rcases List.getElem?_eq_some.mp hpl with ⟨h1, _⟩
        exact h1
      refine ⟨hpllt, ?_⟩
      intro P hPe
      have hPrec : P = rec := by
        rw [hpl] at hPe
        simpa using hPe.symm
      subst hPrec
      rcases dict_merge_changes_ext tm S [] b c hc with h2 | ⟨keys, rfl⟩
      · simp at h2
      · refine ⟨?_, ?_⟩
        · rw [hrb]
          exact strPrefix_foldl_joinPath keys b
        · intro hbne
          rw [hrb] at hbne ⊢
          exact foldl_joinPath_form keys b hbne
  · refine foldl_insort_head _ pl st.patch_locations hs.head ?_
    intro hnil c hc
    have hmaps : st.maps = [] := hs.emptyLocs hnil
    have hsege : segs = [] ∧ tm = [] := by
      cases segs with
      | nil =>
          rw [hmaps] at hnav
          simp only [navV, Option.some.injEq, Val.vMap.injEq] at hnav
          exact ⟨rfl, hnav.symm⟩
      | cons s r =>
          rw [hmaps] at hnav
          simp [navV, lookupA] at hnav
    have hb : b = "" := by
      by_contra hbne
      have : branchSegs b = pySplit b := by simp [branchSegs, hbne]
      rw [this, hsege.1] at hbs
      exact pySplit_ne_nil b hbs
    rcases dict_merge_disjoint_changes S tm [] b
      (by rw [hsege.2]; intro kv _; rfl) hSw c hc with h | h
    · simp at h
    · rw [h, hb]
  · intro hfold
    have hlen := congrArg List.length hfold
    rw [foldl_insort_length] at hlen
    simp only [List.length_nil] at hlen
    have hboth : st.patch_locations.length = 0 ∧ (dict_merge tm S [] b).2.length = 0 := by
      omega
    have hlocs0 : st.patch_locations = [] := List.length_eq_zero.mp hboth.1
    have hch0 : (dict_merge tm S [] b).2 = [] := List.length_eq_zero.mp hboth.2
    have hmaps : st.maps = [] := hs.emptyLocs hlocs0
    have hmerged0 : (dict_merge tm S [] b).1 = tm := dict_merge_no_changes tm S [] b hch0
    simp only [hmerged0]
    rw [updAt_id segs (Val.vMap st.maps) (Val.vMap tm) hnav]
    simpa [asMap] using hmaps
  · show wfTree (asMap (updAt (Val.vMap st.maps) segs _)) = true
    have := updAt_wf segs (Val.vMap st.maps) (Val.vMap tm)
      (Val.vMap (dict_merge tm S [] b).1) hnav
      (by simpa [wfVal] using hs.mapsWf) (by simpa [wfVal] using hmerged.1)
    rw [← updAt_vMap st.maps segs (dict_merge tm S [] b).1] at this
    simpa [wfVal] using this
  · show noEmptyKeys (asMap (updAt (Val.vMap st.maps) segs _)) = true
    have := updAt_good segs (Val.vMap st.maps) (Val.vMap tm)
      (Val.vMap (dict_merge tm S [] b).1) hnav
      (by simpa [noEmptyKeysV] using hs.mapsGood) (by simpa [noEmptyKeysV] using hmerged.2)
    rw [← updAt_vMap st.maps segs (dict_merge tm S [] b).1] at this
    simpa [noEmptyKeysV] using this
  · exact hs.contentGood

theorem navV_delKey (m : List (String × Val)) (k : String) (hw : wfTree m = true)
    (s : String) (rest : List String) (v : Val)
    (h : navV (Val.vMap (delKeyA m k)) (s :: rest) = some v) :
    navV (Val.vMap m) (s :: rest) = some v := by
  by_cases hk : s = k
  · subst hk
    rw [show navV (Val.vMap (delKeyA m s)) (s :: rest) =
      (match lookupA (delKeyA m s) s with
       | some v2 => navV v2 rest | none => none) from rfl,
      lookupA_delKeyA_self m s hw] at h
    simp at h
  · rw [show navV (Val.vMap (delKeyA m k)) (s :: rest) =
      (match lookupA (delKeyA m k) s with
       | some v2 => navV v2 rest | none => none) from rfl,
      lookupA_delKeyA_ne m k s hk] at h
    exact h

theorem SInv_delete (st : Store) (segs : List String) (tm2 : List (String × Val))
    (hs : SInv st)
    (hnav : navV (Val.vMap st.maps) segs = some (Val.vMap tm2)) :
    SInv { st with maps := asMap (updAt (Val.vMap st.maps) segs
      (Val.vMap (delKeyA tm2 "__INCLUDE__"))) } := by
  have hwtm : wfTree tm2 = true := by
    have := navV_wf segs (Val.vMap st.maps) (Val.vMap tm2)
      (by simpa [wfVal] using hs.mapsWf) hnav
    simpa [wfVal] using this
  have hgtm : noEmptyKeys tm2 = true := by
    have := navV_good segs (Val.vMap st.maps) (Val.vMap tm2)
      (by simpa [noEmptyKeysV] using hs.mapsGood) hnav
    simpa [noEmptyKeysV] using this
  refine ⟨?_, hs.locs, hs.head, ?_, ?_, ?_, hs.contentGood⟩
  · intro ℓ v hnav2 hscal
    rw [show Val.vMap (asMap (updAt (Val.vMap st.maps) segs
      (Val.vMap (delKeyA tm2 "__INCLUDE__")))) = updAt (Val.vMap st.maps) segs
      (Val.vMap (delKeyA tm2 "__INCLUDE__")) from updAt_vMap _ _ _] at hnav2
    rcases updAt_split segs (Val.vMap st.maps) (Val.vMap tm2) _ hnav ℓ v hnav2 hscal with
      ⟨ℓ2, rfl, hW⟩ | ⟨_, hold⟩
    · cases ℓ2 with
      | nil =>
          simp only [navV, Option.some.injEq] at hW
          rw [← hW] at hscal
          simp [Val.isMap] at hscal
      | cons s rest =>
          have := navV_delKey tm2 "__INCLUDE__" hwtm s rest v hW
          have hfull : navV (Val.vMap st.maps) (segs ++ s :: rest) = some v := by
            rw [navV_append, hnav]
            simpa using this
          exact hs.inv _ v hfull hscal
    · exact hs.inv ℓ v hold hscal
  · intro hnil
    have hmaps : st.maps = [] := hs.emptyLocs hnil
    have hsege : segs = [] ∧ tm2 = [] := by
      cases segs with
      | nil =>
          rw [hmaps] at hnav
          simp only [navV, Option.some.injEq, Val.vMap.injEq] at hnav
          exact ⟨rfl, hnav.symm⟩
      | cons s r =>
          rw [hmaps] at hnav
          simp [navV, lookupA] at hnav
    rw [hsege.1, hmaps, hsege.2]
    rfl
  · show wfTree (asMap (updAt (Val.vMap st.maps) segs _)) = true
    have := updAt_wf segs (Val.vMap st.maps) (Val.vMap tm2)
      (Val.vMap (delKeyA tm2 "__INCLUDE__")) hnav
      (by simpa [wfVal] using hs.mapsWf)
      (by simpa [wfVal] using wfTree_delKeyA tm2 "__INCLUDE__" hwtm)
    rw [← updAt_vMap st.maps segs (delKeyA tm2 "__INCLUDE__")] at this
    simpa [wfVal] using this
  · show noEmptyKeys (asMap (updAt (Val.vMap st.maps) segs _)) = true
    have := updAt_good segs (Val.vMap st.maps) (Val.vMap tm2)
      (Val.vMap (delKeyA tm2 "__INCLUDE__")) hnav
      (by simpa [noEmptyKeysV] using hs.mapsGood)
      (by simpa [noEmptyKeysV] using noEmptyKeys_delKeyA tm2 "__INCLUDE__" hgtm)
    rw [← updAt_vMap st.maps segs (delKeyA tm2 "__INCLUDE__")] at this
    simpa [noEmptyKeysV] using this

theorem navV_updAt_self (S : List String) (v u W : Val)
    (hS : navV v S = some u) : navV (updAt v S W) S = some W := by
  induction S generalizing v with
  | nil => simp [updAt, navV]
  | cons s rest ih =>
      cases v with
      | vInt n => simp [navV] at hS
      | vStr str => simp [navV] at hS
      | vMap m =>
          cases hl : lookupA m s with
          | none => simp [navV, hl] at hS
          | some x =>
              simp only [navV, hl] at hS
              simp only [updAt, hl, navV, lookupA_setKeyA_self]
              exact ih x hS

theorem load_yamlM_good (env : Env) (hg : goodEnv env) (fn rs : Option Val)
    (pkg : Option String) (m : List (String × Val))
    (h : load_yamlM env fn rs pkg = .ok m) :
    wfTree m = true ∧ noEmptyKeys m = true := by
  unfold load_yamlM at h
  cases fn with
  | some f =>
      cases f with
      | vStr fs =>
          simp only [] at h
          cases he : env.files fs with
          | error e => rw [he] at h; simp at h
          | ok v =>
              rw [he] at h
              cases v with
              | vMap mm =>
                  simp only [Except.ok.injEq] at h
                  subst h
                  exact hg.1 fs mm he
              | vInt n => simp at h
              | vStr s => simp at h
      | vInt n => simp at h
      | vMap mm => simp at h
  | none =>
      cases rs with
      | some r =>
          cases r with
          | vStr rss =>
              simp only [] at h
              cases he : env.resources pkg rss with
              | error e => rw [he] at h; simp at h
              | ok v =>
                  rw [he] at h
                  cases v with
                  | vMap mm =>
                      simp only [Except.ok.injEq] at h
                      subst h
                      exact hg.2 pkg rss mm he
                  | vInt n => simp at h
                  | vStr s => simp at h
          | vInt n => simp at h
          | vMap mm => simp at h
      | none => simp at h

theorem SInv_append (st : Store) (rec : Patch) (hs : SInv st)
    (hgc : noEmptyKeys rec.content = true) :
    SInv { st with patch_list := st.patch_list ++ [rec] } := by
  refine ⟨?_, ?_, hs.head, hs.emptyLocs, hs.mapsWf, hs.mapsGood, ?_⟩
  · intro ℓ v h hscal
    obtain ⟨P, hP, ht⟩ := hs.inv ℓ v h hscal
    exact ⟨P, List.mem_append_left _ hP, ht⟩
  · intro e he
    obtain ⟨h1, h2⟩ := hs.locs e he
    refine ⟨by simp only [List.length_append, List.length_cons, List.length_nil]; omega, ?_⟩
    intro P hP
    apply h2
    rw [← hP]
    show st.patch_list[e.2]? = (st.patch_list ++ [rec])[e.2]?
    rw [List.getElem?_append, if_pos h1]
  · intro P hP
    rcases List.mem_append.mp hP with h | h
    · exact hs.contentGood P h
    · simp only [List.mem_singleton] at h
      rw [h]
      exact hgc

theorem includeLoopF_SInv (step : Store → String → Val → Store × Except Err Unit)
    (hstep : ∀ st sub loc, SInv st → SInv (step st sub loc).1) :
    ∀ (l : List (String × Val)) (st : Store), SInv st →
      SInv (includeLoopF step st l).1 := by
  intro l
  induction l with
  | nil =>
      intro st hs
      simpa [includeLoopF] using hs
  | cons p rest ih =>
      intro st hs
      obtain ⟨sub, location⟩ := p
      have h1 := hstep st sub location hs
      rw [show includeLoopF step st ((sub, location) :: rest) =
        (match step st sub location with
         | (st2, .ok _) => includeLoopF step st2 rest
         | r => r) from rfl]
      cases hr : step st sub location with
      | mk st2 r =>
          rw [hr] at h1
          cases r with
          | ok u => exact ih st2 h1
          | error e => exact h1

theorem processIncludes_scalar (step : Store → String → Val → Store × Except Err Unit)
    (st : Store) (segs : List String) (tv : Val) (htv : tv.isMap = false) :
    (processIncludes step st segs tv).1 = st := by
  cases tv with
  | vMap m => simp [Val.isMap] at htv
  | vInt n => rfl
  | vStr s =>
      rw [show processIncludes step st segs (Val.vStr s) =
        (match (Except.ok (isInfx ("__INCLUDE__").toList s.toList) :
            Except Err Bool) with
         | .error e => (st, .error e)
         | .ok false => (st, .ok ())
         | .ok true =>
            match pyIndex (Val.vStr s) "__INCLUDE__" with
            | .error e => (st, .error e)
            | .ok includes =>
                let st3 : Store := { st with
                  maps := asMap (updAt (Val.vMap st.maps) segs
                    (Val.vMap (delKeyA (asMap (Val.vStr s)) "__INCLUDE__"))) }
                match includes with
                | Val.vMap incs => includeLoopF step st3 incs
                | _ => (st3, .error .typeError)) from rfl]
      cases isInfx ("__INCLUDE__").toList s.toList with
      | false => rfl
      | true => rfl

theorem processIncludes_SInv (step : Store → String → Val → Store × Except Err Unit)
    (hstep : ∀ st sub loc, SInv st → SInv (step st sub loc).1)
    (st : Store) (segs : List String) (tm2 : List (String × Val))
    (hs : SInv st) (hnav : navV (Val.vMap st.maps) segs = some (Val.vMap tm2)) :
    SInv (processIncludes step st segs (Val.vMap tm2)).1 := by
  unfold processIncludes
  simp only [pyContains]
  cases hls : lookupA tm2 "__INCLUDE__" with
  | none => simpa [hls] using hs
  | some includes =>
      simp only [hls, Option.isSome_some, pyIndex, asMap]
      have hs3 := SInv_delete st segs tm2 hs hnav
      cases includes with
      | vMap incs => exact includeLoopF_SInv step hstep incs _ hs3
      | vInt n => exact hs3
      | vStr s => exact hs3

theorem patchM_SInv (env : Env) (hg : goodEnv env) :
    ∀ (fuel : Nat) (st : Store) (fn rs : Option Val) (pkg : Option String)
      (pd : Option (List (String × Val))) (br : Option String),
      SInv st →
      (∀ d, pd = some d → wfTree d = true ∧ noEmptyKeys d = true) →
      SInv (patchM env fuel st fn rs pkg pd br).1 := by
  intro fuel
  induction fuel with
  | zero =>
      intro st fn rs pkg pd br hs _
      simpa [patchM] using hs
  | succ fuel ih =>
      intro st fn rs pkg pd br hs hpd
      simp only [patchM]
      generalize hseg : (match br with
        | none => ([] : List String)
        | some b => pySplit b) = segs
      split
      · exact hs
      rename_i targetV hw
      have hbs : branchSegs (br.getD "") = segs := by
        cases br with
        | none => simpa [branchSegs] using hseg
        | some b =>
            by_cases hb : b = ""
            · exfalso
              subst hb
              simp only [] at hseg
              rw [show pySplit "" = [""] from rfl] at hseg
              subst hseg
              have hnil : lookupA st.maps "" = none :=
                noEmptyKeys_lookup st.maps hs.mapsGood
              simp [walkBranch, pyContains, hnil] at hw
            · simp only [] at hseg
              rw [← hseg]
              simp [branchSegs, Option.getD, hb]
      have hnav1 := walkBranch_ok_nav _ _ _ hw
      split
      · exact hs
      rename_i rec hloaded
      have hrecb : rec.branch = br.getD "" ∧ wfTree rec.content = true ∧
          noEmptyKeys rec.content = true := by
        cases pd with
        | some d =>
            simp only [] at hloaded
            injection hloaded with h
            subst h
            exact ⟨rfl, hpd d rfl⟩
        | none =>
            simp only [] at hloaded
            cases hl : load_yamlM env fn rs pkg with
            | error e => rw [hl] at hloaded; simp at hloaded
            | ok m =>
                rw [hl] at hloaded
                have hgood := load_yamlM_good env hg fn rs pkg m hl
                cases fn with
                | some f =>
                    simp only [] at hloaded
                    injection hloaded with h
                    subst h
                    exact ⟨rfl, hgood⟩
                | none =>
                    simp only [] at hloaded
                    injection hloaded with h
                    subst h
                    exact ⟨rfl, hgood⟩
      have hs1 : SInv { st with patch_list := st.patch_list ++ [rec] } :=
        SInv_append st rec hs hrecb.2.2
      have hstep : ∀ (st9 : Store) (sub : String) (loc : Val), SInv st9 →
          SInv ((match fn with
            | some _ => patchM env fuel st9 (some loc) none none none
                (some (br.getD "" ++ "." ++ sub))
            | none => patchM env fuel st9 none (some loc) pkg none
                (some (joinPath (br.getD "") sub))).1) := by
        intro st9 sub loc h9
        cases fn with
        | some f =>
            exact ih st9 (some loc) none none none
              (some (br.getD "" ++ "." ++ sub)) h9 (fun d hd => nomatch hd)
        | none =>
            exact ih st9 none (some loc) pkg none
              (some (joinPath (br.getD "") sub)) h9 (fun d hd => nomatch hd)
      split
      · rename_i tm
        rcases hmg : dict_merge tm rec.content [] (br.getD "") with ⟨merged, changes⟩
        simp only []
        apply processIncludes_SInv
        · exact hstep
        · have hpl : ({ st with patch_list := st.patch_list ++ [rec] } :
              Store).patch_list[st.patch_list.length]? = some rec := by
            simp [List.getElem?_concat_length]
          have hres := SInv_merge { st with patch_list := st.patch_list ++ [rec] }
            segs tm rec.content (br.getD "") st.patch_list.length rec hs1 hnav1
            hbs hpl hrecb.1 rfl hrecb.2.1 hrecb.2.2
          rw [hmg] at hres
          simpa using hres
        · show navV (Val.vMap (asMap (updAt (Val.vMap st.maps) _
            (Val.vMap merged)))) _ = some (Val.vMap merged)
          rw [updAt_vMap]
          exact navV_updAt_self _ (Val.vMap st.maps) (Val.vMap tm)
            (Val.vMap merged) hnav1
      · rename_i hne
        split
        · rename_i hemp
          cases targetV with
          | vMap m => exact absurd rfl (hne m)
          | vInt n =>
              rw [processIncludes_scalar _ _ _ _ (by rfl)]
              exact hs1
          | vStr s =>
              rw [processIncludes_scalar _ _ _ _ (by rfl)]
              exact hs1
        · exact hs1

theorem resolve_loc_ok_lt (locs : List (String × Nat)) (path : String) (i : Nat)
    (h : resolve_loc locs path = .ok i) : i < locs.length := by
  cases locs with
  | nil => simp [resolve_loc] at h
  | cons pr rest =>
      rw [resolve_loc_cons] at h
      split at h
      · simp at h
      · simp only [Except.ok.injEq] at h
        subst h
        simp only [List.length_cons]
        omega

theorem SInv_set_value_core (st : Store) (path key : String) (value : Val)
    (pidx : Nat) (patch : Patch) (pm sec : List (String × Val)) (navS : List String)
    (hs : SInv st)
    (hlocs_ne : st.patch_locations ≠ [])
    (hp : st.patch_list[pidx]? = some patch)
    (hsplit : branchSegs patch.branch ++ navS = pySplit path)
    (htrn : navV (Val.vMap patch.content) navS = some (Val.vMap pm))
    (hnavsec : navV (Val.vMap st.maps) (pySplit path) = some (Val.vMap sec))
    (hkne : key ≠ "") (hvg : noEmptyKeysV value = true) (hvw : wfVal value = true)
    (hvs : value.isMap = false) :
    SInv { st with
      patch_list := st.patch_list.set pidx
        { patch with content := asMap (updAt (Val.vMap patch.content) navS
            (Val.vMap (setKeyA pm key value))), changed := true },
      maps := asMap (updAt (Val.vMap st.maps) (pySplit path)
        (Val.vMap (setKeyA sec key value))) } := by
  have hpidx_lt : pidx < st.patch_list.length := (List.getElem?_eq_some.mp hp).1
  have hmem_patch : patch ∈ st.patch_list := List.getElem?_mem hp
  have hcontent_good : noEmptyKeys patch.content = true := hs.contentGood patch hmem_patch
  have hpm_good : noEmptyKeys pm = true := by
    have := navV_good navS (Val.vMap patch.content) (Val.vMap pm)
      (by simpa [noEmptyKeysV] using hcontent_good) htrn
    simpa [noEmptyKeysV] using this
  have hsec_wf : wfTree sec = true := by
    have := navV_wf (pySplit path) (Val.vMap st.maps) (Val.vMap sec)
      (by simpa [wfVal] using hs.mapsWf) hnavsec
    simpa [wfVal] using this
  have hsec_good : noEmptyKeys sec = true := by
    have := navV_good (pySplit path) (Val.vMap st.maps) (Val.vMap sec)
      (by simpa [noEmptyKeysV] using hs.mapsGood) hnavsec
    simpa [noEmptyKeysV] using this
  have hset_mem : ∀ (p2 : Patch), p2 ∈ st.patch_list.set pidx p2 := by
    intro p2
    refine List.getElem?_mem (?_ : (st.patch_list.set pidx p2)[pidx]? = some p2)
    rw [List.getElem?_set_self]
    exact hpidx_lt
  have hp2content : navV (Val.vMap (asMap (updAt (Val.vMap patch.content) navS
      (Val.vMap (setKeyA pm key value))))) (navS ++ [key]) = some value := by
    rw [updAt_vMap]
    exact updAt_hits_key navS key value pm (Val.vMap patch.content) htrn
  have hp2off : ∀ (t : List String) (v : Val), v.isMap = false →
      ¬ ((navS ++ [key]) <+: t) →
      navV (Val.vMap patch.content) t = some v →
      navV (Val.vMap (asMap (updAt (Val.vMap patch.content) navS
        (Val.vMap (setKeyA pm key value))))) t = some v := by
    intro t v hscal hnot hnv
    rw [updAt_vMap]
    exact updAt_preserves_off_key navS key value pm (Val.vMap patch.content)
      t v htrn hnot hnv hscal
  refine ⟨?_, ?_, hs.head, ?_, ?_, ?_, ?_⟩
  · intro ℓ v hnav2 hscal
    rw [show Val.vMap (asMap (updAt (Val.vMap st.maps) (pySplit path)
      (Val.vMap (setKeyA sec key value)))) = updAt (Val.vMap st.maps) (pySplit path)
      (Val.vMap (setKeyA sec key value)) from updAt_vMap _ _ _] at hnav2
    rcases updAt_split (pySplit path) (Val.vMap st.maps) (Val.vMap sec) _
        hnavsec ℓ v hnav2 hscal with ⟨ℓ2, rfl, hW⟩ | ⟨hnp, hold⟩
    · cases ℓ2 with
      | nil =>
          simp only [navV, Option.some.injEq] at hW
          rw [← hW] at hscal
          simp [Val.isMap] at hscal
      | cons k2 rest =>
          by_cases hk2 : k2 = key
          · subst hk2
            simp only [navV, lookupA_setKeyA_self] at hW
            cases rest with
            | nil =>
                simp only [navV, Option.some.injEq] at hW
                subst hW
                refine ⟨_, hset_mem _, ?_⟩
                unfold tracesB
                simp only [Bool.and_eq_true, List.isPrefixOf_iff_prefix, beq_iff_eq]
                constructor
                · rw [← hsplit, List.append_assoc]
                  exact List.prefix_append _ _
                · rw [show ((pySplit path) ++ [k2]).drop
                    (branchSegs patch.branch).length = navS ++ [k2] by
                      rw [← hsplit, List.append_assoc]
                      exact List.drop_left _ _]
                  exact hp2content
            | cons k3 rest2 =>
                cases value with
                | vMap m => simp [Val.isMap] at hvs
                | vInt n => simp [navV] at hW
                | vStr s => simp [navV] at hW
          · simp only [navV, lookupA_setKeyA_ne sec key k2 value hk2] at hW
            have hW2 : navV (Val.vMap sec) (k2 :: rest) = some v := by
              simp only [navV]
              exact hW
            have hold2 : navV (Val.vMap st.maps) (pySplit path ++ k2 :: rest) =
                some v := by
              rw [navV_append, hnavsec]
              exact hW2
            obtain ⟨Pp, hPmem, htB⟩ := hs.inv _ v hold2 hscal
            rcases mem_set_or_get st.patch_list pidx _ Pp hPmem with hin | hPeq
            · exact ⟨Pp, hin, htB⟩
            · have hPp : Pp = patch := by
                rw [hp] at hPeq
                simpa using hPeq.symm
              rw [hPp] at htB
              refine ⟨_, hset_mem _, ?_⟩
              unfold tracesB at htB ⊢
              simp only [Bool.and_eq_true, List.isPrefixOf_iff_prefix,
                beq_iff_eq] at htB ⊢
              obtain ⟨hpfx2, hnv2⟩ := htB
              rw [show ((pySplit path) ++ k2 :: rest).drop
                  (branchSegs patch.branch).length = navS ++ k2 :: rest by
                    rw [← hsplit, List.append_assoc]
                    exact List.drop_left _ _] at hnv2
              refine ⟨hpfx2, ?_⟩
              rw [show ((pySplit path) ++ k2 :: rest).drop
                  (branchSegs patch.branch).length = navS ++ k2 :: rest by
                    rw [← hsplit, List.append_assoc]
                    exact List.drop_left _ _]
              refine hp2off _ v hscal ?_ hnv2
              intro hx
              have := (List.prefix_append_right_inj navS).mp hx
              rw [List.cons_prefix_cons] at this
              exact hk2 this.1.symm
    · obtain ⟨Pp, hPmem, htB⟩ := hs.inv ℓ v hold hscal
      rcases mem_set_or_get st.patch_list pidx _ Pp hPmem with hin | hPeq
      · exact ⟨Pp, hin, htB⟩
      · have hPp : Pp = patch := by
          rw [hp] at hPeq
          simpa using hPeq.symm
        rw [hPp] at htB
        refine ⟨_, hset_mem _, ?_⟩
        unfold tracesB at htB ⊢
        simp only [Bool.and_eq_true, List.isPrefixOf_iff_prefix,
          beq_iff_eq] at htB ⊢
        obtain ⟨hpfx2, hnv2⟩ := htB
        obtain ⟨t, rfl⟩ := hpfx2
        rw [List.drop_left] at hnv2
        refine ⟨List.prefix_append _ _, ?_⟩
        rw [List.drop_left]
        refine hp2off t v hscal ?_ hnv2
        intro hx
        apply hnp
        have h1 : branchSegs patch.branch ++ (navS ++ [key]) <+:
            branchSegs patch.branch ++ t :=
          (List.prefix_append_right_inj _).mpr hx
        rw [← List.append_assoc, hsplit] at h1
        exact (List.prefix_append _ _).trans h1
  · intro e he
    obtain ⟨h1, h2⟩ := hs.locs e he
    refine ⟨by simpa [List.length_set] using h1, ?_⟩
    intro P hP
    by_cases he2 : e.2 = pidx
    · rw [he2] at hP
      rw [List.getElem?_set_self hpidx_lt] at hP
      have hPp := hP.symm
      simp only [Option.some.injEq] at hPp
      rw [hPp]
      have := h2 patch (by rw [he2]; exact hp)
      simpa using this
    · rw [List.getElem?_set_ne (by omega)] at hP
      exact h2 P hP
  · intro hnil
    exact absurd hnil hlocs_ne
  · show wfTree (asMap (updAt (Val.vMap st.maps) (pySplit path) _)) = true
    have hW : wfVal (Val.vMap (setKeyA sec key value)) = true := by
      simpa [wfVal] using wfTree_setKeyA sec key value hsec_wf hvw
    have := updAt_wf (pySplit path) (Val.vMap st.maps) (Val.vMap sec)
      (Val.vMap (setKeyA sec key value)) hnavsec
      (by simpa [wfVal] using hs.mapsWf) hW
    rw [← updAt_vMap st.maps (pySplit path) (setKeyA sec key value)] at this
    simpa [wfVal] using this
  · show noEmptyKeys (asMap (updAt (Val.vMap st.maps) (pySplit path) _)) = true
    have hW : noEmptyKeysV (Val.vMap (setKeyA sec key value)) = true := by
      simpa [noEmptyKeysV] using noEmptyKeys_setKeyA sec key value hsec_good hkne hvg
    have := updAt_good (pySplit path) (Val.vMap st.maps) (Val.vMap sec)
      (Val.vMap (setKeyA sec key value)) hnavsec
      (by simpa [noEmptyKeysV] using hs.mapsGood) hW
    rw [← updAt_vMap st.maps (pySplit path) (setKeyA sec key value)] at this
    simpa [noEmptyKeysV] using this
  · intro Pp hPp
    rcases List.mem_or_eq_of_mem_set hPp with hin | hPeq
    · exact hs.contentGood Pp hin
    · rw [hPeq]
      show noEmptyKeys (asMap (updAt (Val.vMap patch.content) navS _)) = true
      have hW : noEmptyKeysV (Val.vMap (setKeyA pm key value)) = true := by
        simpa [noEmptyKeysV] using noEmptyKeys_setKeyA pm key value hpm_good hkne hvg
      have := updAt_good navS (Val.vMap patch.content) (Val.vMap pm)
        (Val.vMap (setKeyA pm key value)) htrn
        (by simpa [noEmptyKeysV] using hcontent_good) hW
      rw [← updAt_vMap patch.content navS (setKeyA pm key value)] at this
      simpa [noEmptyKeysV] using this

theorem strDrop_zero (s : String) : strDrop s 0 = s := by
  cases s
  simp [strDrop]

theorem set_valueM_SInv (st : Store) (path key : String) (value : Val)
    (st2 : Store) (r : Val × Bool) (hs : SInv st)
    (h : set_valueM st path key value = (st2, .ok r)) : SInv st2 := by
  obtain ⟨prev, bb⟩ := r
  unfold set_valueM at h
  split at h
  · simp [Prod.ext_iff] at h
  rename_i hvm
  split at h
  · simp [Prod.ext_iff] at h
  rename_i loc hr
  simp only [] at h
  split at h
  · simp [Prod.ext_iff] at h
  rename_i patch hp
  split at h
  · simp [Prod.ext_iff] at h
  rename_i hprefok
  split at h
  · simp [Prod.ext_iff] at h
  case _ pm htr =>
    split at h
    · simp [Prod.ext_iff] at h
    case _ sec hgs =>
      split at h
      · simp [Prod.ext_iff] at h
      case _ previous hk =>
        simp only [Prod.ext_iff, Except.ok.injEq, Prod.mk.injEq] at h
        obtain ⟨hst2, -, -⟩ := h
        rw [← hst2]
        have hvs : value.isMap = false := by simpa using hvm
        have hvg : noEmptyKeysV value = true := by
          cases value with
          | vMap m => simp [Val.isMap] at hvs
          | vInt n => rfl
          | vStr s => rfl
        have hvw : wfVal value = true := by
          cases value with
          | vMap m => simp [Val.isMap] at hvs
          | vInt n => rfl
          | vStr s => rfl
        have hlt := resolve_loc_ok_lt _ _ _ hr
        have hlocs_ne : st.patch_locations ≠ [] := by
          intro hnil
          rw [hnil] at hlt
          simp at hlt
        have he_mem : st.patch_locations.getD loc ("", 0) ∈ st.patch_locations := by
          rw [List.getD_eq_getElem _ _ hlt]
          exact List.getElem_mem hlt
        have hcond := (hs.locs _ he_mem).2 patch hp
        have hmem_patch : patch ∈ st.patch_list := List.getElem?_mem hp
        have hpne : path ≠ "" := by
          intro hpe
          subst hpe
          have hwalk := get_sectionM_true_walk _ "" sec hgs
          have hw2 : gsWalk (Val.vMap st.maps) (pySplit "") =
              .ok (some (Val.vMap sec)) := hwalk
          have hw3 : gsWalk (Val.vMap st.maps) (pySplit "") = .ok none := by
            rw [show pySplit "" = [""] from rfl]
            simp [gsWalk, pyContains, noEmptyKeys_lookup st.maps hs.mapsGood]
          rw [hw3] at hw2
          simp at hw2
        have hppos : 0 < path.length := by
          show 0 < path.data.length
          have hd : path.data ≠ [] := by
            intro hd
            exact hpne (string_ext path "" hd)
          exact List.length_pos.mpr hd
        have hwalk := get_sectionM_true_walk _ path sec hgs
        have hnavsec : navV (Val.vMap st.maps) (pySplit path) =
            some (Val.vMap sec) := gsWalk_ok_nav _ _ _ hwalk
        have hsec_good : noEmptyKeys sec = true := by
          have := navV_good (pySplit path) (Val.vMap st.maps) (Val.vMap sec)
            (by simpa [noEmptyKeysV] using hs.mapsGood) hnavsec
          simpa [noEmptyKeysV] using this
        have hkne : key ≠ "" :=
          (noEmptyKeys_lookup_val sec key previous hsec_good hk).1
        have hb : patch.branch = "" ∨ patch.branch = path := by
          rcases resolve_loc_ok_exact_or_zero _ _ _ hr with h0 | hexact
          · left
            cases hlocs : st.patch_locations with
            | nil => exact absurd hlocs hlocs_ne
            | cons e0 rest =>
                have hhead := hs.head e0 rest hlocs
                have hgd : (st.patch_locations.getD loc ("", 0)).1 = "" := by
                  rw [hlocs, h0]
                  simpa [List.getD] using hhead
                rw [hgd] at hcond
                exact strPrefix_empty_right _ hcond.1
          · by_cases hbe : patch.branch = ""
            · exact Or.inl hbe
            · rcases hcond.2 hbe with heq | ⟨rr, hrr⟩
              · exact Or.inr (heq.symm.trans hexact)
              · exfalso
                have hpform : path = patch.branch ++ "." ++ rr :=
                  hexact.symm.trans hrr
                have hlt2 : patch.branch.length < path.length := by
                  rw [hpform, string_length_append, string_length_append]
                  rw [show ("." : String).length = 1 from rfl]
                  omega
                rw [if_pos hlt2] at htr
                have hsd : strDrop path patch.branch.length = "." ++ rr := by
                  rw [hpform, string_append_assoc]
                  exact strDrop_append _ _
                rw [hsd, pySplit_dot_cons] at htr
                have hnone : lookupA patch.content "" = none :=
                  noEmptyKeys_lookup _ (hs.contentGood patch hmem_patch)
                simp [svTrace, pyContains, hnone] at htr
        rcases hb with hb0 | hbp
        · have hlt0 : patch.branch.length < path.length := by
            rw [hb0]
            exact hppos
          have hsd0 : strDrop path patch.branch.length = path := by
            rw [hb0]
            exact strDrop_zero path
          rw [if_pos hlt0, hsd0] at htr
          have htrn := svTrace_ok_nav _ _ _ htr
          have hsplit : branchSegs patch.branch ++ pySplit path = pySplit path := by
            rw [hb0]
            rfl
          rw [if_pos hlt0, hsd0]
          exact SInv_set_value_core st path key value _ patch pm sec (pySplit path)
            hs hlocs_ne hp hsplit htrn hnavsec hkne hvg hvw hvs
        · have hnot : ¬ (patch.branch.length < path.length) := by
            rw [hbp]
            omega
          rw [if_neg hnot] at htr
          have htrn := svTrace_ok_nav _ _ _ htr
          have hsplit : branchSegs patch.branch ++ ([] : List String) =
              pySplit path := by
            rw [hbp]
            simp [branchSegs, hpne]
          rw [if_neg hnot]
          exact SInv_set_value_core st path key value _ patch pm sec []
            hs hlocs_ne hp hsplit htrn hnavsec hkne hvg hvw hvs
    case _ hne => simp [Prod.ext_iff] at h
  case _ hne => simp [Prod.ext_iff] at h

/-- Stores reachable by construction, `patch()` calls with
dictionary-representable empty-key-free sources, and normally-returning
`set_value()` calls satisfy the strengthened invariant. -/
theorem ReachOk_SInv (env : Env) (hg : goodEnv env) (st : Store)
    (h : ReachOk env st) : SInv st := by
  induction h with
  | init => exact SInv_empty
  | patchStep st fuel fn rs pkg pd br hre hpd ih =>
      exact patchM_SInv env hg fuel st fn rs pkg pd br ih hpd
  | setOk st st2 path key value r hre hsv ih =>
      exact set_valueM_SInv st path key value st2 r ih hsv

/-- The dictionary `{k: 5}` used twice to build a store holding two
identical patches. -/
def dupPatch : List (String × Val) := [("k", Val.vInt 5)]

/-- `Construct({dict: {k: 5}}); patch(patch_dict={k: 5})`: the same
dictionary patched twice at the root. -/
def stDup : Store :=
  (patchM noSources 2
    (patchM noSources 2 Store.empty none none none (some dupPatch) none).1
    none none none (some dupPatch) none).1

/-- How many patches of the list trace the given leaf (the "exactly
one" count of the claim). -/
def countTraces (st : Store) (segs : List String) (v : Val) : Nat :=
  (st.patch_list.filter (fun P => tracesB P segs v)).length

/-- `Construct({dict: {k: 5}})`. -/
def stP1 : Store :=
  (patchM noSources 2 Store.empty none none none (some [("k", Val.vInt 5)]) none).1

/-- `set_value("", "k", 9)` on that store: the owning patch's content
copy is rewritten and marked dirty, then `get_section("", must_exist)`
raises because `"".split(".") == [""]` never matches a key. -/
def stPoison : Store × Except Err (Val × Bool) :=
  set_valueM stP1 "" "k" (Val.vInt 9)

/-- `Construct({dict: {a: {b: {k: 0}}}})`. -/
def stE2base : Store :=
  (patchM noSources 2 Store.empty none none none
    (some [("a", Val.vMap [("b", Val.vMap [("k", Val.vInt 0)])])]) none).1

/-- ... then `patch(patch_dict={"": {b: {k: 0}}, b: {k: 1}}, branch="a")`:
a source whose top level holds an empty-string key. -/
def stE2 : Store :=
  (patchM noSources 2 stE2base none none none
    (some [("", Val.vMap [("b", Val.vMap [("k", Val.vInt 0)])]),
           ("b", Val.vMap [("k", Val.vInt 1)])]) (some "a")).1

/-- `set_value("a.b", "k", 7)` on that store: it returns normally, but
`path[len(prefix):].split('.') == ["", "b"]` navigates the owning
patch's content through the empty-string key, mutating the wrong node. -/
def stE2r : Store × Except Err (Val × Bool) :=
  set_valueM stE2 "a.b" "k" (Val.vInt 7)

/-- C2 (counterexample): the claimed invariant fails in three ways.
(i) Patching the same dictionary twice leaves the leaf `k = 5` traceable
to two patches, not exactly one.  (ii) `set_value("", "k", 9)` on a
store built from `{k: 5}` raises (so there has been a `set_value()`
call), yet it first rewrote the owning patch's content to `k = 9`,
leaving the still-consolidated leaf `k = 5` traceable to no patch.
(iii) With a source holding an empty-string top-level key,
`set_value("a.b", "k", 7)` returns normally but mutates the wrong
content node, leaving the new consolidated leaf `a.b.k = 7` traceable
to no patch. -/
theorem C2_counterexample :
    (navV (Val.vMap stDup.maps) ["k"] = some (Val.vInt 5) ∧
      countTraces stDup ["k"] (Val.vInt 5) = 2) ∧
    (stPoison.2 = .error
        (.ycError "YamlConfig.get_section, path not found or not a dict") ∧
      navV (Val.vMap stPoison.1.maps) ["k"] = some (Val.vInt 5) ∧
      countTraces stPoison.1 ["k"] (Val.vInt 5) = 0) ∧
    (stE2r.2 = .ok (Val.vInt 1, false) ∧
      navV (Val.vMap stE2r.1.maps) ["a", "b", "k"] = some (Val.vInt 7) ∧
      countTraces stE2r.1 ["a", "b", "k"] (Val.vInt 7) = 0) :=
  ⟨⟨rfl, rfl⟩, ⟨rfl, rfl, rfl⟩, ⟨rfl, rfl, rfl⟩⟩

/-- C2 (amended): in every store reachable by construction, by
`patch()` calls whose sources are dictionary-representable without
empty-string keys, and by `set_value()` calls that return normally,
every non-mapping leaf of the consolidated tree is traceable to at
least one patch of the patch list: that patch's branch, split into
segments, is a prefix of the leaf's path, and its stored content,
navigated by the remaining segments, holds the leaf's value. -/
theorem C2_leaves_traceable_in_reachable_stores (env : Env) (st : Store)
    (hg : goodEnv env) (hre : ReachOk env st) :
    ∀ segs v, navV (Val.vMap st.maps) segs = some v → v.isMap = false →
      ∃ P ∈ st.patch_list, tracesB P segs v = true :=
  fun segs v h1 h2 => (ReachOk_SInv env hg st hre).inv segs v h1 h2

/-- Witness for C2's amended invariant: the store of the C9 scenario
after its successful `set_value("root.branch", "value", 2)` call is
reachable, the source-free environment is good, and the theorem applies
to it. -/
theorem C2_leaves_traceable_witness :
    goodEnv noSources ∧
    ReachOk noSources (set_valueM storeC9 "root.branch" "value" (Val.vInt 2)).1 ∧
    ∀ segs v,
      navV (Val.vMap (set_valueM storeC9 "root.branch" "value"
        (Val.vInt 2)).1.maps) segs = some v → v.isMap = false →
      ∃ P ∈ (set_valueM storeC9 "root.branch" "value" (Val.vInt 2)).1.patch_list,
        tracesB P segs v = true := by
  have hg : goodEnv noSources := by
    constructor
    · intro f m h
      simp [noSources] at h
    · intro pkg r m h
      simp [noSources] at h
  have h1 : ReachOk noSources storeC9 :=
    ReachOk.patchStep Store.empty 2 none none none
      (some [("root", Val.vMap [("branch", Val.vMap [("value", Val.vInt 0)])])])
      none ReachOk.init
      (by
        intro d hd
        injection hd with h
        rw [← h]
        exact ⟨rfl, rfl⟩)
  have h2 : ReachOk noSources
      (set_valueM storeC9 "root.branch" "value" (Val.vInt 2)).1 :=
    ReachOk.setOk storeC9 _ "root.branch" "value" (Val.vInt 2)
      (Val.vInt 0, false) h1 rfl
  exact ⟨hg, h2, C2_leaves_traceable_in_reachable_stores noSources _ hg h2⟩
